import Mathlib

/-!
# Verification of the hyp3rflow/agent execution core

Shallow embedding of the agent turn loop (`src/agent.ts`), the workflow
runner (`src/workflow.ts`), the workflow manager (`src/workflow-manager.ts`),
the event bus (`src/core/events.ts`) and the sandbox (`sandbox.ts`), with
theorems settling the frozen specification claims.

Conventions:
* JS strings are modelled by Lean `String`; `String.startsWith` of JS is
  modelled as a `List Char` prefix test on `String.data`.
* Async scheduling is modelled by an explicit step counter `t` that advances
  by one at every await point (retrieving a provider event / stream end /
  stream exception, and executing one tool).  The cancellation token is
  modelled by a threshold `abortAt`: the `aborted` flag reads true at step
  `t` iff `abortAt ≤ t`.  `abortAt = 0` means the token was aborted before
  the run started; a large `abortAt` means it is never observed.
* Fallible JS code is modelled with `Except` / `Option`; a JS function that
  may throw is modelled as returning its thrown message in a sum.
-/

namespace AgentCore

/-- JS `String.startsWith` modelled on the character list. -/
def strStartsWith (s pre : String) : Bool :=
  pre.data.isPrefixOf s.data

/-- `types.ts` `TokenUsage` (the optional cache counters are not read by any
code under verification and are omitted). -/
structure TokenUsage where
  inputTokens : Nat
  outputTokens : Nat
deriving DecidableEq, Repr

/-- `types.ts` `ToolCall`. -/
structure ToolCall where
  id : String
  name : String
  input : String
deriving DecidableEq, Repr

/-- `types.ts` `ToolResult` (metadata omitted, unused by the loop). -/
structure ToolResult where
  callId : String
  content : String
  isError : Bool
deriving DecidableEq, Repr

/-- `types.ts` `FinishReason`. -/
inductive FinishReason
  | endTurn | toolUse | maxTokens | stop | canceled | error
deriving DecidableEq, Repr

/-- `types.ts` `Role`. -/
inductive Role
  | system | user | assistant | tool
deriving DecidableEq, Repr

/-- `types.ts` `Message` (id and timestamp are opaque and omitted). -/
structure Message where
  role : Role
  content : String
  toolCalls : Option (List ToolCall)
  toolResults : Option (List ToolResult)
  usage : Option TokenUsage
deriving DecidableEq, Repr

/-- The payload of a provider `complete` event (`ProviderEvent.response`). -/
structure ProviderResponse where
  finishReason : FinishReason
  toolCalls : List ToolCall
  usage : TokenUsage
deriving DecidableEq, Repr

/-- `types.ts` `ProviderEvent`.  Optional fields that the loop reads with
`?? …` are modelled as `Option`. -/
inductive ProviderEvent
  | thinkingDelta (content : Option String)
  | contentDelta (content : Option String)
  | toolUseStart (toolCall : Option ToolCall)
  | toolUseDelta (content : Option String)
  | toolUseStop
  | complete (response : Option ProviderResponse)
  | error (message : String)
deriving DecidableEq, Repr

/-- `types.ts` `AgentEvent` as the loop actually emits them (each yield site
in `agent.ts` fills exactly one payload). -/
inductive AgentEvent
  | thinking (content : Option String)
  | content (content : Option String)
  | toolCall (toolCall : ToolCall)
  | toolResult (toolResult : ToolResult)
  | message (message : Message)
  | error (message : String)
  | done (finishReason : FinishReason) (usage : Option TokenUsage)
deriving DecidableEq, Repr

/-- Behaviour of one `tool.execute` call: returns `{content, isError}` or
throws a message. -/
inductive ToolExec
  | ok (content : String) (isError : Bool)
  | throws (message : String)
deriving DecidableEq, Repr

/-- The agent's tool map (`this.tools : Map<string, Tool>`), as lookup by
name; the behaviour of a registered tool is a function of its input. -/
abbrev Tools := String → Option (String → ToolExec)

/-- One call to `provider.stream`: the events it yields in order, and
`thrown = some e` when the stream terminates by raising `e` instead of
completing normally. -/
structure TurnStream where
  events : List ProviderEvent
  thrown : Option String

/-- The cancellation token: `aborted` reads true at step `t` iff
`abortAt ≤ t`. -/
def abortedAt (abortAt t : Nat) : Bool :=
  decide (abortAt ≤ t)

/-- The per-turn accumulator of `Agent.loop` (agent.ts:155-160):
`assistantContent`, `finishReason`, `toolCalls`, `currentToolInput`,
`currentToolCall`, `usage`. -/
structure TurnState where
  assistantContent : String
  finishReason : FinishReason
  toolCalls : List ToolCall
  currentToolInput : String
  currentToolCall : Option ToolCall
  usage : Option TokenUsage
deriving DecidableEq, Repr

/-- Initial per-turn accumulator (agent.ts:155-160). -/
def initTurnState : TurnState :=
  { assistantContent := ""
    finishReason := .endTurn
    toolCalls := []
    currentToolInput := ""
    currentToolCall := none
    usage := none }

/-- The `complete` branch's merge of `event.response.toolCalls` not already
seen by the delta path, dedup by id, each new one also emitted as a
`toolCall` event (agent.ts:217-223). -/
def mergeCalls (st : TurnState) : List ToolCall → TurnState × List AgentEvent
  | [] => (st, [])
  | tc :: rest =>
    if st.toolCalls.any (fun t => t.id = tc.id) then
      mergeCalls st rest
    else
      let res := mergeCalls { st with toolCalls := st.toolCalls ++ [tc] } rest
      (res.1, .toolCall tc :: res.2)

/-- The `switch (event.type)` body of the provider loop (agent.ts:176-231):
next accumulator state and the agent events yielded for this provider
event. -/
def stepEvent (st : TurnState) : ProviderEvent → TurnState × List AgentEvent
  | .thinkingDelta c => (st, [.thinking c])
  | .contentDelta c =>
      ({ st with assistantContent := st.assistantContent ++ c.getD "" }, [.content c])
  | .toolUseStart tc =>
      ({ st with currentToolCall := tc, currentToolInput := "" }, [])
  | .toolUseDelta c =>
      ({ st with currentToolInput := st.currentToolInput ++ c.getD "" }, [])
  | .toolUseStop =>
      match st.currentToolCall with
      | some c =>
        let tc : ToolCall := ⟨c.id, c.name, st.currentToolInput⟩
        ({ st with toolCalls := st.toolCalls ++ [tc],
                   currentToolCall := none, currentToolInput := "" },
         [.toolCall tc])
      | none => (st, [])
  | .complete resp =>
      match resp with
      | some r =>
        mergeCalls { st with finishReason := r.finishReason, usage := some r.usage }
          r.toolCalls
      | none => (st, [])
  | .error e => (st, [.error e])

/-- How the `for await` over the provider stream ends. -/
inductive TurnExit
  /-- The loop exited (stream end, or the abort-break at agent.ts:174);
  control continues at "Save assistant message". -/
  | finished (st : TurnState)
  /-- A thrown stream exception with the token aborted:
  `done(canceled)` was emitted and the run returned (agent.ts:234-237). -/
  | canceledDone
  /-- A thrown stream exception without abort: `error` then `done(error)`
  were emitted and the run returned (agent.ts:238-242). -/
  | errorDone
deriving DecidableEq, Repr

/-- The `for await (const event of provider.stream(...))` loop of one turn
(agent.ts:162-243).  Retrieving each event — and the final stream
end/exception — is one await, advancing the step counter; the
`if (controller.signal.aborted) break` check then reads the token. -/
def processStream (abortAt : Nat) (st : TurnState) (t : Nat) :
    List ProviderEvent → Option String → List AgentEvent × Nat × TurnExit
  | [], thrown =>
    match thrown with
    | none => ([], t + 1, .finished st)
    | some e =>
      if abortedAt abortAt (t + 1) then
        ([.done .canceled none], t + 1, .canceledDone)
      else
        ([.error e, .done .error none], t + 1, .errorDone)
  | ev :: rest, thrown =>
    if abortedAt abortAt (t + 1) then
      ([], t + 1, .finished st)
    else
      let step := stepEvent st ev
      let res := processStream abortAt step.1 (t + 1) rest thrown
      (step.2 ++ res.1, res.2)

/-- `Agent.executeToolCalls` (agent.ts:300-332): sequential execution,
synthesising `Canceled` when the token is observed aborted, `Unknown tool`
when the name is not registered, and an error outcome when the tool throws.
Executing a registered tool is one await. -/
def execToolCalls (tools : Tools) (abortAt : Nat) (t : Nat) :
    List ToolCall → List ToolResult × Nat
  | [] => ([], t)
  | tc :: rest =>
    if abortedAt abortAt t then
      let res := execToolCalls tools abortAt t rest
      (⟨tc.id, "Canceled", true⟩ :: res.1, res.2)
    else
      match tools tc.name with
      | none =>
        let res := execToolCalls tools abortAt t rest
        (⟨tc.id, "Unknown tool: " ++ tc.name, true⟩ :: res.1, res.2)
      | some f =>
        match f tc.input with
        | .ok content isError =>
          let res := execToolCalls tools abortAt (t + 1) rest
          (⟨tc.id, content, isError⟩ :: res.1, res.2)
        | .throws msg =>
          let res := execToolCalls tools abortAt (t + 1) rest
          (⟨tc.id, msg, true⟩ :: res.1, res.2)

/-- The turn loop `for (let turn = 0; turn < maxTurns; turn++)`
(agent.ts:137-294), by remaining-turn fuel.  Returns the yielded events and
the final session message list. -/
def runTurns (tools : Tools) (provider : Nat → TurnStream) (abortAt : Nat) :
    Nat → Nat → Nat → List Message → List AgentEvent × List Message
  | _, 0, _, msgs => ([.done .maxTokens none], msgs)
  | turn, rem + 1, t, msgs =>
    if abortedAt abortAt t then
      ([.done .canceled none], msgs)
    else
      let stream := provider turn
      let proc := processStream abortAt initTurnState t stream.events stream.thrown
      match proc.2.2 with
      | .canceledDone => (proc.1, msgs)
      | .errorDone => (proc.1, msgs)
      | .finished st =>
        let assistantMsg : Message :=
          { role := .assistant
            content := st.assistantContent
            toolCalls := if st.toolCalls.isEmpty then none else some st.toolCalls
            toolResults := none
            usage := st.usage }
        let msgs1 := msgs ++ [assistantMsg]
        let evs1 := proc.1 ++ [.message assistantMsg]
        if st.toolCalls.isEmpty ∨ st.finishReason ≠ .toolUse then
          (evs1 ++ [.done st.finishReason st.usage], msgs1)
        else
          let exec := execToolCalls tools abortAt proc.2.1 st.toolCalls
          let toolMsg : Message :=
            { role := .tool
              content := String.intercalate "\n\n" (exec.1.map (·.content))
              toolCalls := none
              toolResults := some exec.1
              usage := none }
          let msgs2 := msgs1 ++ [toolMsg]
          let evs2 := evs1 ++ exec.1.map .toolResult
          let rec_ := runTurns tools provider abortAt (turn + 1) rem exec.2 msgs2
          (evs2 ++ rec_.1, rec_.2)

/-- `Agent.run`/`Agent.loop` entry: appends the user message and runs up to
`maxTurns` turns (`maxTurns = config.maxTurns ?? 50`). -/
def runAgent (tools : Tools) (provider : Nat → TurnStream) (maxTurns abortAt : Nat)
    (userContent : String) : List AgentEvent × List Message :=
  let userMsg : Message := ⟨.user, userContent, none, none, none⟩
  runTurns tools provider abortAt 0 maxTurns 0 [userMsg]

/-- The events yielded by a full agent run. -/
def runAgentEvents (tools : Tools) (provider : Nat → TurnStream)
    (maxTurns abortAt : Nat) (userContent : String) : List AgentEvent :=
  (runAgent tools provider maxTurns abortAt userContent).1

/-- Whether an agent event is a `done` event. -/
def AgentEvent.isDone : AgentEvent → Bool
  | .done _ _ => true
  | _ => false

/-- Whether an agent event is one of the kinds that the provider-stream
switch can yield (`thinking`, `content`, `toolCall`, `error`). -/
def AgentEvent.isStreamKind : AgentEvent → Bool
  | .thinking _ => true
  | .content _ => true
  | .toolCall _ => true
  | .error _ => true
  | _ => false

/-- The `toolCall` payloads of a list of agent events, in order. -/
def toolCallEvents (evs : List AgentEvent) : List ToolCall :=
  evs.filterMap fun e =>
    match e with
    | .toolCall tc => some tc
    | _ => none

/-- The event sequence ends with a `done` event and contains no other
`done` event. -/
def endsWithOneDone (evs : List AgentEvent) : Prop :=
  ∃ pre fr u, evs = pre ++ [AgentEvent.done fr u] ∧ ∀ e ∈ pre, e.isDone = false

/-- Pure processing of a provider event list with no abort and no stream
exception: final accumulator and concatenated yields. -/
def foldStream (st : TurnState) : List ProviderEvent → TurnState × List AgentEvent
  | [] => (st, [])
  | ev :: rest =>
    let s := stepEvent st ev
    let r := foldStream s.1 rest
    (r.1, s.2 ++ r.2)

/-! ## Workflow runner (`src/workflow.ts`) -/

/-- `WorkflowResult.status`. -/
inductive WStatus
  | completed | error | canceled
deriving DecidableEq, Repr

/-- `workflow.ts` `WorkflowResult` (runId and duration are opaque and
omitted; the `agentsSpawned` counter is initialised to 0 and never
incremented in the source, which the embedding keeps). -/
structure WorkflowResult where
  status : WStatus
  output : String
  usage : TokenUsage
  agentsSpawned : Nat
  errorMsg : Option String
deriving DecidableEq, Repr

/-- `WorkflowEvent.type`. -/
inductive WType
  | started | wcompleted | werror | agentSpawned | agentCompleted | agentEvent
deriving DecidableEq, Repr

/-- The `data` payload of a workflow event, per emit site in
`workflow.ts`. -/
inductive WData
  | noData
  | errorData (message : String)
  | agentData (ev : AgentEvent)
  | spawnData (model : Option String) (task : Option String)
  | outputData (output : Option String)
  | resultData (r : WorkflowResult)
deriving DecidableEq, Repr

/-- `workflow.ts` `WorkflowEvent & { result? }` (runId omitted: every event
of one run carries the same one). -/
structure WEvent where
  wtype : WType
  agentName : Option String
  data : WData
  timestamp : Nat
  result : Option WorkflowResult
deriving DecidableEq, Repr

/-- Events emitted on the run-scoped `ctx.bus` by the delegation tool
(`workflow.ts:420-467`), which is the only emitter in the source; none of
its emits carries a `result`. -/
inductive BusEvent
  | spawned (name : String) (model task : String) (ts : Nat)
  | agentEv (name : String) (ev : AgentEvent) (ts : Nat)
  | completedEv (name : String) (output : String) (ts : Nat)
deriving DecidableEq, Repr

/-- The workflow event a bus emission materialises as. -/
def BusEvent.toWEvent : BusEvent → WEvent
  | .spawned n m task ts => ⟨.agentSpawned, some n, .spawnData (some m) (some task), ts, none⟩
  | .agentEv n e ts => ⟨.agentEvent, some n, .agentData e, ts, none⟩
  | .completedEv n o ts => ⟨.agentCompleted, some n, .outputData (some o), ts, none⟩

/-- The `usage` field carried by an agent event: the loop only sets it on
`done` yields. -/
def AgentEvent.usageOf : AgentEvent → Option TokenUsage
  | .done _ u => u
  | _ => none

/-- `totalUsage.inputTokens += ...; totalUsage.outputTokens += ...` when the
event carries usage (workflow.ts:239-242). -/
def addUsage (u : TokenUsage) : Option TokenUsage → TokenUsage
  | some v => ⟨u.inputTokens + v.inputTokens, u.outputTokens + v.outputTokens⟩
  | none => u

/-- How the workflow's `for await` over the main agent ends: normally, or
with an exception (from the `afterRun` hook) carrying the usage and output
accumulated so far. -/
inductive WfEnd
  | normal
  | threw (msg : String) (usage : TokenUsage) (output : String)
deriving DecidableEq, Repr

/-- `if (event.type === 'message' && event.message?.role === 'assistant')
output = event.message.content` (workflow.ts:235-237). -/
def wfOutput (e : AgentEvent) (o : String) : String :=
  match e with
  | .message m => if m.role = .assistant then m.content else o
  | _ => o

/-- The `for await (const event of mainAgent.run(...))` body
(workflow.ts:217-266): drain the bus buffer, forward the main-agent event
as `agent:event`, track output and usage, and on `done` build the
`WorkflowResult`, run `afterRun`, and yield `workflow:completed`.
`bus i` is the buffer content drained before the `i`-th main event;
`afterRun = some msg` models an `afterRun` hook that throws `msg`. -/
def wfLoop (afterRun : Option String) (bus : Nat → List BusEvent) :
    Nat → List AgentEvent → TokenUsage → String → List WEvent × WfEnd
  | _, [], _, _ => ([], .normal)
  | i, e :: rest, u, o =>
    let drained := (bus i).map BusEvent.toWEvent
    let fwd : WEvent := ⟨.agentEvent, some "main", .agentData e, 0, none⟩
    let o' := wfOutput e o
    let u' := addUsage u e.usageOf
    match e with
    | .done fr _ =>
      let result : WorkflowResult :=
        ⟨if fr = .canceled then .canceled else .completed, o', u', 0, none⟩
      match afterRun with
      | some msg => (drained ++ [fwd], .threw msg u' o')
      | none =>
        let doneEv : WEvent := ⟨.wcompleted, none, .resultData result, 0, some result⟩
        let res := wfLoop afterRun bus (i + 1) rest u' o'
        (drained ++ [fwd] ++ [doneEv] ++ res.1, res.2)
    | _ =>
      let res := wfLoop afterRun bus (i + 1) rest u' o'
      (drained ++ [fwd] ++ res.1, res.2)

/-- `Workflow.run` (workflow.ts:133-293).  `providerExists` is whether
`schema.providers[schema.defaultProvider]` is defined; `beforeRun`/
`afterRun = some msg` model hooks that throw `msg`; `tailBus` is the buffer
content drained in the `finally` block.  Returns the yielded events and the
exception propagated to the consumer, if any (a throwing `beforeRun` runs
before the `try` block, so nothing catches it). -/
def runWorkflow (providerExists : Bool) (beforeRun afterRun : Option String)
    (mainEvents : List AgentEvent) (bus : Nat → List BusEvent)
    (tailBus : List BusEvent) : List WEvent × Option String :=
  let startedEv : WEvent := ⟨.started, none, .noData, 0, none⟩
  match beforeRun with
  | some msg => ([startedEv], some msg)
  | none =>
    if providerExists = false then
      let errResult : WorkflowResult :=
        ⟨.error, "", ⟨0, 0⟩, 0, some "Default provider not found"⟩
      ([startedEv,
        ⟨.werror, none, .errorData "Default provider not found", 0, some errResult⟩],
       none)
    else
      let res := wfLoop afterRun bus 0 mainEvents ⟨0, 0⟩ ""
      match res.2 with
      | .normal => (startedEv :: (res.1 ++ tailBus.map BusEvent.toWEvent), none)
      | .threw msg u o =>
        let errResult : WorkflowResult := ⟨.error, o, u, 0, some msg⟩
        (startedEv :: (res.1 ++
          [⟨.werror, none, .errorData msg, 0, some errResult⟩] ++
          tailBus.map BusEvent.toWEvent), none)

/-- Number of yielded events whose payload carries a `WorkflowResult`. -/
def countResults (evs : List WEvent) : Nat :=
  (evs.filter (fun e => e.result.isSome)).length

/-- The forwarded `agent:event` wrapper for a main-agent event. -/
def fwdEvent (e : AgentEvent) : WEvent :=
  ⟨.agentEvent, some "main", .agentData e, 0, none⟩

/-- The outcome `executeToolCalls` produces for one invocation when the
token is never observed aborted: the tool's own result with the
invocation's id as `callId`, a synthetic `Unknown tool: <name>` error when
the name is not registered, and an error outcome wrapping the thrown
message when the tool throws. -/
def pureOutcome (tools : Tools) (tc : ToolCall) : ToolResult :=
  match tools tc.name with
  | none => ⟨tc.id, "Unknown tool: " ++ tc.name, true⟩
  | some f =>
    match f tc.input with
    | .ok c b => ⟨tc.id, c, b⟩
    | .throws m => ⟨tc.id, m, true⟩

/-- The assistant message a turn appends when the stream processes to the
accumulator `foldStream initTurnState es` (agent.ts:246-254). -/
def turnAssistantMsg (es : List ProviderEvent) : Message :=
  { role := .assistant
    content := (foldStream initTurnState es).1.assistantContent
    toolCalls := if (foldStream initTurnState es).1.toolCalls.isEmpty then none
      else some (foldStream initTurnState es).1.toolCalls
    toolResults := none
    usage := (foldStream initTurnState es).1.usage }

/-- The tool message a turn appends after executing its invocations
(agent.ts:276-283). -/
def turnToolMsg (tools : Tools) (abortAt t : Nat) (es : List ProviderEvent) : Message :=
  { role := .tool
    content := String.intercalate "\n\n"
      (((execToolCalls tools abortAt (t + es.length + 1)
        (foldStream initTurnState es).1.toolCalls).1).map (·.content))
    toolCalls := none
    toolResults := some (execToolCalls tools abortAt (t + es.length + 1)
      (foldStream initTurnState es).1.toolCalls).1
    usage := none }

/-- A concrete tool map used by witnesses: `echo` returns its input,
`boom` throws. -/
def toolsEx : Tools := fun n =>
  if n = "echo" then some (fun i => .ok i false)
  else if n = "boom" then some (fun _ => .throws "bad")
  else none

/-- A concrete invocation list used by witnesses. -/
def l0c : List ToolCall :=
  [⟨"a", "echo", "payload"⟩, ⟨"b", "nope", ""⟩, ⟨"c", "boom", "z"⟩]

/-- A concrete `tool_use` provider stream used by witnesses. -/
def es0c : List ProviderEvent :=
  [.toolUseStart (some ⟨"t1", "echo", ""⟩), .toolUseDelta (some "hi"), .toolUseStop,
   .complete (some ⟨.toolUse, [⟨"t1", "echo", "x"⟩, ⟨"t2", "nope", ""⟩], ⟨1, 2⟩⟩)]

/-- Two turn accumulators that agree on every field except possibly the
pending `currentToolInput` buffer. -/
def InputOnlyDiff (st1 st2 : TurnState) : Prop :=
  st1.assistantContent = st2.assistantContent ∧
  st1.finishReason = st2.finishReason ∧
  st1.toolCalls = st2.toolCalls ∧
  st1.currentToolCall = st2.currentToolCall ∧
  st1.usage = st2.usage

/-- `InputOnlyDiff`, and the difference is unobservable: either the buffers
agree or no invocation is open. -/
def StreamEquiv (st1 st2 : TurnState) : Prop :=
  InputOnlyDiff st1 st2 ∧
    (st1.currentToolInput = st2.currentToolInput ∨ st1.currentToolCall = none)

/-! ## Event bus (`src/core/events.ts`) -/

/-- A registered handler: an opaque identity and whether invoking it
throws. -/
structure Handler where
  id : Nat
  throws : Bool
deriving DecidableEq, Repr

/-- The bus's `handlers : Map<string, Set<Handler>>`, as an association list;
JS Maps and Sets iterate in insertion order. -/
abbrev BusHandlers := List (String × List Handler)

/-- `this.handlers.get(name)` with a missing key giving no handlers. -/
def getHandlers (bus : BusHandlers) (name : String) : List Handler :=
  match bus.find? (fun p => p.1 = name) with
  | some p => p.2
  | none => []

/-- `for (const h of handlers) h(data)`: handlers are invoked in order;
a throwing handler is invoked (receives the data) and its exception aborts
the iteration.  Returns the ids of the handlers invoked and the escaped
exception's source, if any. -/
def runHandlers : List Handler → List Nat × Option Nat
  | [] => ([], none)
  | h :: rest =>
    if h.throws then ([h.id], some h.id)
    else
      let res := runHandlers rest
      (h.id :: res.1, res.2)

/-- `EventBus.emit` (events.ts:22-35): the specific handler set first, then
the wildcard set unless the event name is `*` itself; no handler exception
is caught, so one escaping from the specific pass prevents the wildcard
pass.  Returns the ids of handlers that received the data and the escaped
exception, if any. -/
def busEmit (bus : BusHandlers) (event : String) : List Nat × Option Nat :=
  let spec := runHandlers (getHandlers bus event)
  match spec.2 with
  | some e => (spec.1, some e)
  | none =>
    if event ≠ "*" then
      let wild := runHandlers (getHandlers bus "*")
      (spec.1 ++ wild.1, wild.2)
    else (spec.1, none)

/-- The handlers an `emit(event, …)` addresses, in invocation order. -/
def allHandlers (bus : BusHandlers) (event : String) : List Handler :=
  getHandlers bus event ++ (if event ≠ "*" then getHandlers bus "*" else [])

/-! ## Sandbox (`sandbox.ts`)

JS string primitives (`split('/')`, `toLowerCase`, `trim`,
`split(/\s+/)[0]`) are modelled at the character level so that every
definition evaluates inside the kernel; absolute paths are represented by
their segment lists. -/

/-- `"a/b".split('/')` at the character level. -/
def splitSegsAux (cur : List Char) : List Char → List String
  | [] => [String.mk cur.reverse]
  | c :: rest =>
    if c = '/' then String.mk cur.reverse :: splitSegsAux [] rest
    else splitSegsAux (c :: cur) rest

/-- Split a path string on `/`. -/
def splitSegs (s : String) : List String := splitSegsAux [] s.data

/-- JS `toLowerCase` (ASCII, as the sandbox's inputs are commands and
paths). -/
def lowerStr (s : String) : String := String.mk (s.data.map Char.toLower)

/-- JS `trim`. -/
def trimStr (s : String) : String :=
  String.mk (((s.data.dropWhile Char.isWhitespace).reverse.dropWhile
    Char.isWhitespace).reverse)

/-- POSIX segment normalisation — the fold inside `path.resolve` over an
absolute path: `""` and `"."` segments vanish, `".."` pops (a no-op at the
root), anything else is pushed. -/
def normSegs (stack : List String) : List String → List String
  | [] => stack
  | s :: rest =>
    if s = "" ∨ s = "." then normSegs stack rest
    else if s = ".." then normSegs stack.dropLast rest
    else normSegs (stack ++ [s]) rest

/-- `path.resolve(base, input)` where `base` is an already-resolved
absolute path (the sandbox's `rootDir`), as its segment list. -/
def pathResolve (base : List String) (input : String) : List String :=
  if strStartsWith input "/" then normSegs [] (splitSegs input)
  else normSegs base (splitSegs input)

/-- Longest common prefix length of two segment lists. -/
def commonPrefixLen : List String → List String → Nat
  | a :: as, b :: bs => if a = b then commonPrefixLen as bs + 1 else 0
  | _, _ => 0

/-- Join segments with `/`. -/
def joinSlash : List String → String
  | [] => ""
  | [s] => s
  | s :: rest => s ++ "/" ++ joinSlash rest

/-- `path.relative(src, dst)` for two resolved absolute segment lists: drop
the common prefix, then one `..` per remaining `src` segment followed by
the remaining `dst` segments. -/
def pathRelative (src dst : List String) : String :=
  joinSlash (List.replicate (src.length - commonPrefixLen src dst) ".." ++
    dst.drop (commonPrefixLen src dst))

/-- `SandboxError.code` (sandbox.ts:341-349). -/
inductive SandboxErrorCode
  | path_violation | command_banned | command_not_allowed
  | permission_denied | network_blocked
deriving DecidableEq, Repr

/-- `Sandbox.resolvePath` (sandbox.ts:134-142): resolve against `rootDir`
and reject with `path_violation` when `relative(rootDir, abs)` starts with
`..`; the source's second disjunct `resolve(abs) !== abs && rel.startsWith('..')`
is kept as written. -/
def resolvePath (root : List String) (inputPath : String) :
    Except SandboxErrorCode (List String) :=
  let abs := pathResolve root inputPath
  let rel := pathRelative root abs
  if strStartsWith rel ".." ∨ (normSegs [] abs ≠ abs ∧ strStartsWith rel "..") then
    .error .path_violation
  else .ok abs

/-- `Sandbox.isPathAllowed` (sandbox.ts:145-152): true iff `resolvePath`
does not throw. -/
def isPathAllowed (root : List String) (inputPath : String) : Bool :=
  match resolvePath root inputPath with
  | .ok _ => true
  | .error _ => false

/-- The command-related sandbox configuration after defaults
(sandbox.ts:116-129). -/
structure CmdConfig where
  allowedCommands : List String
  bannedCommands : List String
  safeReadOnlyCommands : List String
  autoApprove : Bool

/-- `Sandbox.isCommandBanned` (sandbox.ts:157-165): first banned entry that
is a case-insensitive prefix of the trimmed command, if any. -/
def isCommandBanned (cfg : CmdConfig) (command : String) : Option String :=
  cfg.bannedCommands.find? fun b =>
    strStartsWith (lowerStr (trimStr command)) (lowerStr b)

/-- `Sandbox.isCommandSafeReadOnly` (sandbox.ts:168-177): case-insensitive
exact match or `" "`/`"-"`-bounded prefix match. -/
def isCommandSafeReadOnly (cfg : CmdConfig) (command : String) : Bool :=
  cfg.safeReadOnlyCommands.any fun safe =>
    lowerStr (trimStr command) == lowerStr safe ||
    strStartsWith (lowerStr (trimStr command)) (lowerStr safe ++ " ") ||
    strStartsWith (lowerStr (trimStr command)) (lowerStr safe ++ "-")

/-- `command.trim().split(/\s+/)[0].toLowerCase()` (sandbox.ts:182). -/
def baseCmd (command : String) : String :=
  lowerStr (String.mk ((trimStr command).data.takeWhile fun c => !c.isWhitespace))

/-- `Sandbox.isCommandAllowed` (sandbox.ts:180-186): `"*"` allows all, else
the first whitespace-delimited token matches an entry exactly or the whole
trimmed command starts with an entry (case-insensitive). -/
def isCommandAllowed (cfg : CmdConfig) (command : String) : Bool :=
  if cfg.allowedCommands.contains "*" then true
  else
    cfg.allowedCommands.any fun a =>
      baseCmd command == lowerStr a ||
      strStartsWith (lowerStr (trimStr command)) (lowerStr a)

/-- The `{allowed, reason, needsPermission}` record `validateCommand`
returns. -/
structure CmdVerdict where
  allowed : Bool
  reason : String
  needsPermission : Bool
deriving DecidableEq, Repr

/-- `Sandbox.validateCommand` (sandbox.ts:189-206): banned beats allowed
beats safe-readonly beats the default permission-requiring path; the stats
counters are not modelled. -/
def validateCommand (cfg : CmdConfig) (command : String) : CmdVerdict :=
  match isCommandBanned cfg command with
  | some b => ⟨false, "Banned command: " ++ b, false⟩
  | none =>
    if !isCommandAllowed cfg command then ⟨false, "Command not in allowlist", false⟩
    else if isCommandSafeReadOnly cfg command then ⟨true, "safe read-only", false⟩
    else ⟨true, "needs approval", !cfg.autoApprove⟩

/-! ## Workflow manager (`src/workflow-manager.ts`) -/

/-- `SubAgentInfo.status`. -/
inductive SubStatus
  | running | completed | error
deriving DecidableEq, Repr

/-- `workflow-manager.ts` `SubAgentInfo`. -/
structure SubAgentInfo where
  name : String
  model : Option String
  status : SubStatus
  spawnedAt : Nat
  completedAt : Option Nat
  prompt : Option String
  output : Option String
  eventCount : Nat
deriving DecidableEq, Repr

/-- `WorkflowRunInfo.status`. -/
inductive RunStatus
  | running | completed | error | canceled
deriving DecidableEq, Repr

/-- The mutable part of `WorkflowRunInfo` that `_executeRun` maintains
(identifiers, timestamps and the static schema snapshot are omitted). -/
structure WorkflowRunInfo where
  status : RunStatus
  agents : List SubAgentInfo
  usage : TokenUsage
  recentEvents : List WEvent
  output : Option String
  result : Option WorkflowResult
deriving DecidableEq, Repr

/-- The initial run record (workflow-manager.ts:120-150). -/
def initInfo : WorkflowRunInfo :=
  { status := .running, agents := [], usage := ⟨0, 0⟩, recentEvents := [],
    output := none, result := none }

/-- `(event.data as {model?}).model`. -/
def WData.spawnModel : WData → Option String
  | .spawnData m _ => m
  | _ => none

/-- `(event.data as {task?}).task`. -/
def WData.spawnTask : WData → Option String
  | .spawnData _ t => t
  | _ => none

/-- `(event.data as any)?.output`. -/
def WData.completedOutput : WData → Option String
  | .outputData o => o
  | _ => none

/-- `event.data as AgentEvent | undefined`. -/
def WData.agentEvent : WData → Option AgentEvent
  | .agentData e => some e
  | _ => none

/-- A workflow result's status as a run status. -/
def WStatus.toRunStatus : WStatus → RunStatus
  | .completed => .completed
  | .error => .error
  | .canceled => .canceled

/-- `info.agents.find(a => a.name === n && a.status === 'running')` followed
by the in-place completion mutation (workflow-manager.ts:182-187): updates
the **first** still-running entry with the name, leaving the rest as they
are. -/
def markCompleted (n : String) (out : Option String) (ts : Nat) :
    List SubAgentInfo → List SubAgentInfo
  | [] => []
  | a :: rest =>
    if a.name = n ∧ a.status = .running then
      { a with status := .completed, completedAt := some ts, output := out } :: rest
    else a :: markCompleted n out ts rest

/-- `info.agents.find(a => a.name === n)` followed by `agent.eventCount++`
(workflow-manager.ts:190-192). -/
def incEventCount (n : String) : List SubAgentInfo → List SubAgentInfo
  | [] => []
  | a :: rest =>
    if a.name = n then { a with eventCount := a.eventCount + 1 } :: rest
    else a :: incEventCount n rest

/-- Ring buffer push: append, then drop the oldest entry when over
capacity 200 (workflow-manager.ts:160-163). -/
def capPush (evs : List WEvent) (e : WEvent) : List WEvent :=
  if (evs ++ [e]).length > 200 then (evs ++ [e]).drop 1 else evs ++ [e]

/-- The `agent:spawned` branch (workflow-manager.ts:169-179). -/
def spawnStep (info : WorkflowRunInfo) (e : WEvent) : WorkflowRunInfo :=
  match e.wtype, e.agentName with
  | .agentSpawned, some n =>
    { info with agents := info.agents ++
      [⟨n, e.data.spawnModel, .running, e.timestamp, none, e.data.spawnTask, none, 0⟩] }
  | _, _ => info

/-- The `agent:completed` branch (workflow-manager.ts:181-188). -/
def completeStep (info : WorkflowRunInfo) (e : WEvent) : WorkflowRunInfo :=
  match e.wtype, e.agentName with
  | .agentCompleted, some n =>
    { info with agents := markCompleted n e.data.completedOutput e.timestamp info.agents }
  | _, _ => info

/-- The `agent:event` branch (workflow-manager.ts:190-200): bump the event
count of the entry with the name, and add the nested agent event's usage
(inputTokens/outputTokens) to the run's aggregated usage. -/
def agentEventStep (info : WorkflowRunInfo) (e : WEvent) : WorkflowRunInfo :=
  match e.wtype, e.agentName with
  | .agentEvent, some n =>
    let info1 := { info with agents := incEventCount n info.agents }
    match e.data.agentEvent with
    | some ae =>
      match ae.usageOf with
      | some u =>
        { info1 with usage := ⟨info1.usage.inputTokens + u.inputTokens,
            info1.usage.outputTokens + u.outputTokens⟩ }
      | none => info1
    | none => info1
  | _, _ => info

/-- The `event.result` branch (workflow-manager.ts:202-210): final status,
output, usage and result are overwritten from the carried result. -/
def resultStep (info : WorkflowRunInfo) (e : WEvent) : WorkflowRunInfo :=
  match e.result with
  | some r =>
    { info with status := r.status.toRunStatus
                output := some r.output
                usage := r.usage
                result := some r }
  | none => info

/-- One iteration of `_executeRun`'s event loop
(workflow-manager.ts:159-210), in source order: ring-buffer push, bus
forward (no effect on the record), sub-agent tracking, usage tracking,
completion tracking. -/
def procEvent (info : WorkflowRunInfo) (e : WEvent) : WorkflowRunInfo :=
  resultStep (agentEventStep (completeStep (spawnStep
    { info with recentEvents := capPush info.recentEvents e } e) e) e) e

/-- Processing a whole event sequence from the initial record. -/
def procEvents (info : WorkflowRunInfo) (evs : List WEvent) : WorkflowRunInfo :=
  evs.foldl procEvent info

/-- The usage contribution of one observed event: the nested agent event's
usage for an `agent:event` with an agent name, zero otherwise. -/
def eventAgentUsage (e : WEvent) : TokenUsage :=
  match e.wtype, e.agentName, e.data.agentEvent with
  | .agentEvent, some _, some ae =>
    match ae.usageOf with
    | some u => u
    | none => ⟨0, 0⟩
  | _, _, _ => ⟨0, 0⟩

/-- Componentwise sum of the usage carried by the agent events in a
sequence, from a starting accumulator. -/
def sumAgentUsageFrom (u : TokenUsage) (evs : List WEvent) : TokenUsage :=
  evs.foldl (fun acc e => ⟨acc.inputTokens + (eventAgentUsage e).inputTokens,
    acc.outputTokens + (eventAgentUsage e).outputTokens⟩) u

/-- Componentwise sum of the usage carried by the agent events observed. -/
def sumAgentUsage (evs : List WEvent) : TokenUsage :=
  sumAgentUsageFrom ⟨0, 0⟩ evs

/-- A concrete sub-agent `done` event carrying usage (5, 7). -/
def subUsageEv : WEvent :=
  ⟨.agentEvent, some "sub", .agentData (.done .endTurn (some ⟨5, 7⟩)), 0, none⟩

/-- A concrete result-carrying completion event whose result has zero
usage. -/
def zeroResultEv : WEvent :=
  ⟨.wcompleted, none, .resultData ⟨.completed, "out", ⟨0, 0⟩, 0, none⟩, 0,
    some ⟨.completed, "out", ⟨0, 0⟩, 0, none⟩⟩

/-- A still-running sub-agent entry named `a`, spawned at time `t`. -/
def runningSub (t : Nat) : SubAgentInfo :=
  ⟨"a", none, .running, t, none, none, none, 0⟩

/-! ## Theorems -/

theorem mergeCalls_events_streamKind (st : TurnState) (l : List ToolCall) :
    ∀ e ∈ (mergeCalls st l).2, e.isStreamKind = true := by
  induction l generalizing st with
  | nil => simp [mergeCalls]
  | cons tc rest ih =>
    intro e he
    by_cases h : st.toolCalls.any (fun t => t.id = tc.id)
    · simp only [mergeCalls, h, if_pos] at he
      exact ih st e he
    · simp only [mergeCalls, h, if_neg, Bool.not_eq_true, List.mem_cons] at he
      rcases he with rfl | he
      · rfl
      · exact ih _ e he

theorem stepEvent_events_streamKind (st : TurnState) (ev : ProviderEvent) :
    ∀ e ∈ (stepEvent st ev).2, e.isStreamKind = true := by
  cases ev with
  | toolUseStop =>
    cases h : st.currentToolCall <;> simp [stepEvent, h, AgentEvent.isStreamKind]
  | complete resp =>
    cases resp with
    | none => simp [stepEvent]
    | some r => exact mergeCalls_events_streamKind _ _
  | _ => simp [stepEvent, AgentEvent.isStreamKind]

theorem streamKind_not_done {e : AgentEvent} (h : e.isStreamKind = true) :
    e.isDone = false := by
  cases e <;> simp_all [AgentEvent.isStreamKind, AgentEvent.isDone]

/-- Shape of one provider-stream pass: either the loop finishes (yielding
only stream-kind events), or it terminates the run with a trailing `done`
preceded by stream-kind events. -/
theorem processStream_shape (abortAt : Nat) (st : TurnState) (t : Nat)
    (evs : List ProviderEvent) (thrown : Option String) :
    (∃ st', (processStream abortAt st t evs thrown).2.2 = .finished st' ∧
      ∀ e ∈ (processStream abortAt st t evs thrown).1, e.isStreamKind = true) ∨
    (((processStream abortAt st t evs thrown).2.2 = .canceledDone ∨
      (processStream abortAt st t evs thrown).2.2 = .errorDone) ∧
      ∃ pre fr u, (processStream abortAt st t evs thrown).1 = pre ++ [.done fr u] ∧
        ∀ e ∈ pre, e.isStreamKind = true) := by
  induction evs generalizing st t with
  | nil =>
    cases thrown with
    | none => exact Or.inl ⟨st, rfl, by simp [processStream]⟩
    | some e =>
      by_cases h : abortedAt abortAt (t + 1)
      · refine Or.inr ⟨Or.inl (by simp [processStream, h]), [], .canceled, none, ?_, by simp⟩
        simp [processStream, h]
      · refine Or.inr ⟨Or.inr (by simp [processStream, h]), [.error e], .error, none, ?_, ?_⟩
        · simp [processStream, h]
        · intro x hx; simp at hx; subst hx; rfl
  | cons ev rest ih =>
    by_cases h : abortedAt abortAt (t + 1)
    · exact Or.inl ⟨st, by simp [processStream, h], by simp [processStream, h]⟩
    · have hstep := stepEvent_events_streamKind st ev
      rcases ih (stepEvent st ev).1 (t + 1) with ⟨st', hex, hevs⟩ |
        ⟨hexit, pre, fr, u, heq, hpre⟩
      · refine Or.inl ⟨st', ?_, ?_⟩
        · simpa [processStream, h] using hex
        · intro e he
          simp only [processStream, h, if_neg, Bool.not_eq_true, List.mem_append] at he
          rcases he with he | he
          · exact hstep e he
          · exact hevs e he
      · refine Or.inr ⟨?_, (stepEvent st ev).2 ++ pre, fr, u, ?_, ?_⟩
        · simpa [processStream, h] using hexit
        · simp [processStream, h, heq]
        · intro e he
          rcases List.mem_append.mp he with he | he
          · exact hstep e he
          · exact hpre e he

/-- With no observed abort and a normally-terminating stream, the provider
loop is the pure fold. -/
theorem processStream_no_abort (abortAt : Nat) (st : TurnState) (t : Nat)
    (evs : List ProviderEvent) (h : t + evs.length < abortAt) :
    processStream abortAt st t evs none =
      ((foldStream st evs).2, t + evs.length + 1, .finished (foldStream st evs).1) := by
  induction evs generalizing st t with
  | nil => simp [processStream, foldStream]
  | cons ev rest ih =>
    have h' : t + 1 + rest.length < abortAt := by
      simp only [List.length_cons] at h
      omega
    have hne : abortedAt abortAt (t + 1) = false := by
      simp only [abortedAt, decide_eq_false_iff_not, not_le]
      omega
    have hrec := ih (stepEvent st ev).1 (t + 1) h'
    simp only [processStream, hne, Bool.false_eq_true, if_false, hrec, foldStream,
      List.length_cons, Prod.mk.injEq]
    exact ⟨trivial, by omega, trivial⟩

theorem endsWithOneDone_snoc {a : List AgentEvent} (fr : FinishReason)
    (u : Option TokenUsage) (ha : ∀ e ∈ a, AgentEvent.isDone e = false) :
    endsWithOneDone (a ++ [.done fr u]) :=
  ⟨a, fr, u, rfl, ha⟩

theorem endsWithOneDone_append {a b : List AgentEvent}
    (ha : ∀ e ∈ a, AgentEvent.isDone e = false) (hb : endsWithOneDone b) :
    endsWithOneDone (a ++ b) := by
  obtain ⟨pre, fr, u, rfl, hpre⟩ := hb
  refine ⟨a ++ pre, fr, u, by simp, ?_⟩
  intro e he
  rcases List.mem_append.mp he with h | h
  · exact ha e h
  · exact hpre e h

/-- Every execution of the turn loop yields a sequence ending with exactly
one `done` event, on every path (normal, error, cancellation, turn
exhaustion). -/
theorem runTurns_one_done (tools : Tools) (provider : Nat → TurnStream)
    (abortAt : Nat) : ∀ (rem turn t : Nat) (msgs : List Message),
    endsWithOneDone (runTurns tools provider abortAt turn rem t msgs).1 := by
  intro rem
  induction rem with
  | zero =>
    intro turn t msgs
    exact ⟨[], .maxTokens, none, rfl, by simp⟩
  | succ rem ih =>
    intro turn t msgs
    by_cases hab : abortedAt abortAt t
    · simp only [runTurns, hab, if_true]
      exact ⟨[], .canceled, none, rfl, by simp⟩
    · have hab' : abortedAt abortAt t = false := by simpa using hab
      simp only [runTurns, hab', Bool.false_eq_true, if_false]
      rcases processStream_shape abortAt initTurnState t (provider turn).events
          (provider turn).thrown with ⟨st, hex, hevs⟩ | ⟨hexit, pre, fr, u, heq, hpre⟩
      · rw [hex]
        have hstream : ∀ e ∈ (processStream abortAt initTurnState t
            (provider turn).events (provider turn).thrown).1, AgentEvent.isDone e = false :=
          fun e he => streamKind_not_done (hevs e he)
        by_cases htc : st.toolCalls.isEmpty = true ∨ st.finishReason ≠ .toolUse
        · simp only [htc, if_true]
          rw [List.append_cons, List.append_nil]
          refine endsWithOneDone_snoc _ _ ?_
          intro e he
          rcases List.mem_append.mp he with h | h
          · exact hstream e h
          · simp at h
            subst h
            rfl
        · simp only [htc, if_false]
          refine endsWithOneDone_append ?_ (ih (turn + 1) _ _)
          intro e he
          rcases List.mem_append.mp he with h | h
          · rcases List.mem_append.mp h with h | h
            · exact hstream e h
            · simp at h
              subst h
              rfl
          · simp only [List.mem_map] at h
            obtain ⟨r, _, rfl⟩ := h
            rfl
      · have hshape : endsWithOneDone (processStream abortAt initTurnState t
            (provider turn).events (provider turn).thrown).1 :=
          ⟨pre, fr, u, heq, fun e he => streamKind_not_done (hpre e he)⟩
        rcases hexit with hex | hex <;> rw [hex] <;> exact hshape

theorem busEvent_no_result (b : BusEvent) : (BusEvent.toWEvent b).result = none := by
  cases b <;> rfl

theorem countResults_nil : countResults [] = 0 := rfl

theorem countResults_append (a b : List WEvent) :
    countResults (a ++ b) = countResults a + countResults b := by
  simp [countResults, List.filter_append]

theorem countResults_bus (l : List BusEvent) :
    countResults (l.map BusEvent.toWEvent) = 0 := by
  induction l with
  | nil => rfl
  | cons b rest ih =>
    simp only [List.map_cons, countResults, List.filter_cons, busEvent_no_result,
      Option.isSome_none, Bool.false_eq_true, if_false]
    exact ih

theorem wfLoop_cons_not_done (afterRun : Option String) (bus : Nat → List BusEvent)
    (i : Nat) (e : AgentEvent) (rest : List AgentEvent) (u : TokenUsage) (o : String)
    (h : e.isDone = false) :
    wfLoop afterRun bus i (e :: rest) u o =
      ((bus i).map BusEvent.toWEvent ++ [fwdEvent e] ++
        (wfLoop afterRun bus (i + 1) rest (addUsage u e.usageOf) (wfOutput e o)).1,
       (wfLoop afterRun bus (i + 1) rest (addUsage u e.usageOf) (wfOutput e o)).2) := by
  cases e with
  | done fr uu => simp [AgentEvent.isDone] at h
  | thinking c => simp [wfLoop, fwdEvent]
  | content c => simp [wfLoop, fwdEvent]
  | toolCall tc => simp [wfLoop, fwdEvent]
  | toolResult r => simp [wfLoop, fwdEvent]
  | message m => simp [wfLoop, fwdEvent]
  | error m => simp [wfLoop, fwdEvent]

theorem wfLoop_cons_done_none (bus : Nat → List BusEvent) (i : Nat)
    (fr : FinishReason) (uu : Option TokenUsage) (rest : List AgentEvent)
    (u : TokenUsage) (o : String) :
    wfLoop none bus i (.done fr uu :: rest) u o =
      ((bus i).map BusEvent.toWEvent ++ [fwdEvent (.done fr uu)] ++
        [⟨.wcompleted, none,
          .resultData ⟨if fr = .canceled then .canceled else .completed, o,
            addUsage u uu, 0, none⟩, 0,
          some ⟨if fr = .canceled then .canceled else .completed, o,
            addUsage u uu, 0, none⟩⟩] ++
        (wfLoop none bus (i + 1) rest (addUsage u uu) o).1,
       (wfLoop none bus (i + 1) rest (addUsage u uu) o).2) := by
  simp [wfLoop, fwdEvent, wfOutput, AgentEvent.usageOf]

theorem wfLoop_cons_done_some (m : String) (bus : Nat → List BusEvent) (i : Nat)
    (fr : FinishReason) (uu : Option TokenUsage) (rest : List AgentEvent)
    (u : TokenUsage) (o : String) :
    wfLoop (some m) bus i (.done fr uu :: rest) u o =
      ((bus i).map BusEvent.toWEvent ++ [fwdEvent (.done fr uu)],
       .threw m (addUsage u uu) o) := by
  simp [wfLoop, fwdEvent, wfOutput, AgentEvent.usageOf]

theorem countResults_fwd (e : AgentEvent) : countResults [fwdEvent e] = 0 := rfl

theorem wfLoop_no_done (afterRun : Option String) (bus : Nat → List BusEvent) :
    ∀ (evs : List AgentEvent) (i : Nat) (u : TokenUsage) (o : String),
    (∀ e ∈ evs, AgentEvent.isDone e = false) →
    countResults (wfLoop afterRun bus i evs u o).1 = 0 ∧
      (wfLoop afterRun bus i evs u o).2 = .normal := by
  intro evs
  induction evs with
  | nil => intro i u o _; exact ⟨rfl, rfl⟩
  | cons e rest ih =>
    intro i u o h
    have he : e.isDone = false := h e (by simp)
    have hrest : ∀ x ∈ rest, AgentEvent.isDone x = false :=
      fun x hx => h x (by simp [hx])
    have hih := ih (i + 1) (addUsage u e.usageOf) (wfOutput e o) hrest
    rw [wfLoop_cons_not_done afterRun bus i e rest u o he]
    refine ⟨?_, hih.2⟩
    rw [countResults_append, countResults_append, countResults_bus,
      countResults_fwd, hih.1]

theorem wfLoop_done_last (afterRun : Option String) (bus : Nat → List BusEvent) :
    ∀ (pre : List AgentEvent) (fr : FinishReason) (uu : Option TokenUsage)
      (i : Nat) (u : TokenUsage) (o : String),
    (∀ e ∈ pre, AgentEvent.isDone e = false) →
    (afterRun = none →
      countResults (wfLoop afterRun bus i (pre ++ [.done fr uu]) u o).1 = 1 ∧
      (wfLoop afterRun bus i (pre ++ [.done fr uu]) u o).2 = .normal) ∧
    (∀ m, afterRun = some m →
      countResults (wfLoop afterRun bus i (pre ++ [.done fr uu]) u o).1 = 0 ∧
      ∃ uu' oo, (wfLoop afterRun bus i (pre ++ [.done fr uu]) u o).2 = .threw m uu' oo) := by
  intro pre
  induction pre with
  | nil =>
    intro fr uu i u o _
    constructor
    · rintro rfl
      rw [List.nil_append, wfLoop_cons_done_none bus i fr uu [] u o]
      refine ⟨?_, by simp [wfLoop]⟩
      rw [countResults_append, countResults_append, countResults_append,
        countResults_bus, countResults_fwd]
      simp [wfLoop, countResults]
    · rintro m rfl
      rw [List.nil_append, wfLoop_cons_done_some m bus i fr uu [] u o]
      refine ⟨?_, _, _, rfl⟩
      rw [countResults_append, countResults_bus, countResults_fwd]
  | cons e rest ih =>
    intro fr uu i u o h
    have he : e.isDone = false := h e (by simp)
    have hrest : ∀ x ∈ rest, AgentEvent.isDone x = false :=
      fun x hx => h x (by simp [hx])
    have hih := ih fr uu (i + 1) (addUsage u e.usageOf) (wfOutput e o) hrest
    rw [List.cons_append, wfLoop_cons_not_done afterRun bus i e _ u o he]
    constructor
    · intro hnone
      obtain ⟨hc, hend⟩ := hih.1 hnone
      refine ⟨?_, hend⟩
      rw [countResults_append, countResults_append, countResults_bus,
        countResults_fwd, hc]
    · intro m hsome
      obtain ⟨hc, uu', oo, hend⟩ := hih.2 m hsome
      refine ⟨?_, uu', oo, hend⟩
      rw [countResults_append, countResults_append, countResults_bus,
        countResults_fwd, hc]

/-- When the main-agent event stream ends with exactly one `done` and
`beforeRun` does not throw, `Workflow.run` yields exactly one
result-carrying event, on every path (missing default provider, normal
completion, throwing `afterRun`). -/
theorem runWorkflow_one_result (providerExists : Bool) (afterRun : Option String)
    (mainEvents : List AgentEvent) (bus : Nat → List BusEvent)
    (tailBus : List BusEvent) (hmain : endsWithOneDone mainEvents) :
    countResults (runWorkflow providerExists none afterRun mainEvents bus tailBus).1 = 1 ∧
    (runWorkflow providerExists none afterRun mainEvents bus tailBus).2 = none := by
  obtain ⟨pre, fr, uu, rfl, hpre⟩ := hmain
  cases providerExists with
  | false => exact ⟨rfl, rfl⟩
  | true =>
    cases afterRun with
    | none =>
      have hl := (wfLoop_done_last none bus pre fr uu 0 ⟨0, 0⟩ "" hpre).1 rfl
      simp only [runWorkflow, Bool.true_eq_false, if_false, hl.2]
      refine ⟨?_, by trivial⟩
      have : countResults (⟨.started, none, .noData, 0, none⟩ ::
          ((wfLoop none bus 0 (pre ++ [.done fr uu]) ⟨0, 0⟩ "").1 ++
            tailBus.map BusEvent.toWEvent)) =
          countResults (wfLoop none bus 0 (pre ++ [.done fr uu]) ⟨0, 0⟩ "").1 +
            countResults (tailBus.map BusEvent.toWEvent) := by
        simp [countResults, List.filter_cons]
      rw [this, hl.1, countResults_bus]
    | some m =>
      have hl := (wfLoop_done_last (some m) bus pre fr uu 0 ⟨0, 0⟩ "" hpre).2 m rfl
      obtain ⟨hc, uu', oo, hend⟩ := hl
      simp only [runWorkflow, Bool.true_eq_false, if_false, hend]
      refine ⟨?_, by trivial⟩
      have : countResults (⟨.started, none, .noData, 0, none⟩ ::
          ((wfLoop (some m) bus 0 (pre ++ [.done fr uu]) ⟨0, 0⟩ "").1 ++
            [⟨.werror, none, .errorData m, 0, some ⟨.error, oo, uu', 0, some m⟩⟩] ++
            tailBus.map BusEvent.toWEvent)) =
          countResults (wfLoop (some m) bus 0 (pre ++ [.done fr uu]) ⟨0, 0⟩ "").1 +
            (1 + countResults (tailBus.map BusEvent.toWEvent)) := by
        simp [countResults, List.filter_cons, List.filter_append]
        omega
      rw [this, hc, countResults_bus]

/-- C1 (amended): for every agent run, the event sequence yielded by
`Agent.run` ends with exactly one `done` event, including on error and
cancellation paths; and for every workflow run whose `beforeRun` hook
returns normally, the sequence yielded by `Workflow.run` contains exactly
one event whose payload carries a `WorkflowResult`. -/
theorem claim_c1_amended :
    (∀ (tools : Tools) (provider : Nat → TurnStream) (maxTurns abortAt : Nat)
        (content : String),
      endsWithOneDone (runAgentEvents tools provider maxTurns abortAt content)) ∧
    (∀ (providerExists : Bool) (afterRun : Option String) (tools : Tools)
        (provider : Nat → TurnStream) (maxTurns abortAt : Nat) (content : String)
        (bus : Nat → List BusEvent) (tailBus : List BusEvent),
      countResults (runWorkflow providerExists none afterRun
        (runAgentEvents tools provider maxTurns abortAt content) bus tailBus).1 = 1) := by
  constructor
  · intro tools provider maxTurns abortAt content
    exact runTurns_one_done tools provider abortAt maxTurns 0 0 _
  · intro pe afterRun tools provider maxTurns abortAt content bus tailBus
    exact (runWorkflow_one_result pe afterRun _ bus tailBus
      (runTurns_one_done tools provider abortAt maxTurns 0 0 _)).1

/-- C1 counterexample: a workflow run whose `beforeRun` hook throws yields
only `workflow:started` — zero events carrying a `WorkflowResult` — and
propagates the exception to the consumer (`beforeRun` is awaited before the
`try` block of `Workflow.run`). -/
theorem claim_c1_counterexample :
    countResults (runWorkflow true (some "hook failure") none
      (runAgentEvents (fun _ => none)
        (fun _ => ⟨[.contentDelta (some "Hello!"),
          .complete (some ⟨.endTurn, [], ⟨10, 20⟩⟩)], none⟩) 50 1000 "Say hi")
      (fun _ => []) []).1 = 0 ∧
    (runWorkflow true (some "hook failure") none
      (runAgentEvents (fun _ => none)
        (fun _ => ⟨[.contentDelta (some "Hello!"),
          .complete (some ⟨.endTurn, [], ⟨10, 20⟩⟩)], none⟩) 50 1000 "Say hi")
      (fun _ => []) []).2 = some "hook failure" :=
  ⟨rfl, rfl⟩

theorem mergeCalls_fr_usage (st : TurnState) (l : List ToolCall) :
    (mergeCalls st l).1.finishReason = st.finishReason ∧
      (mergeCalls st l).1.usage = st.usage := by
  induction l generalizing st with
  | nil => exact ⟨rfl, rfl⟩
  | cons tc rest ih =>
    by_cases h : st.toolCalls.any (fun t => t.id = tc.id)
    · simpa [mergeCalls, h] using ih st
    · simpa [mergeCalls, h] using
        ih { st with toolCalls := st.toolCalls ++ [tc] }

theorem stepEvent_fr_usage (st : TurnState) (ev : ProviderEvent)
    (h : ∀ r, ev ≠ ProviderEvent.complete r) :
    (stepEvent st ev).1.finishReason = st.finishReason ∧
      (stepEvent st ev).1.usage = st.usage := by
  cases ev with
  | complete r => exact absurd rfl (h r)
  | toolUseStop =>
    cases hc : st.currentToolCall <;> simp [stepEvent, hc]
  | _ => simp [stepEvent]

theorem foldStream_fr_usage (es : List ProviderEvent)
    (h : ∀ r, ProviderEvent.complete r ∉ es) : ∀ st : TurnState,
    (foldStream st es).1.finishReason = st.finishReason ∧
      (foldStream st es).1.usage = st.usage := by
  induction es with
  | nil => exact fun st => ⟨rfl, rfl⟩
  | cons ev rest ih =>
    intro st
    have hrest : ∀ r, ProviderEvent.complete r ∉ rest :=
      fun r hr => h r (List.mem_cons_of_mem _ hr)
    have hev : ∀ r, ev ≠ ProviderEvent.complete r :=
      fun r he => h r (by rw [he]; exact List.mem_cons_self _ _)
    have hstep := stepEvent_fr_usage st ev hev
    have hfold := ih hrest (stepEvent st ev).1
    simp only [foldStream]
    exact ⟨hfold.1.trans hstep.1, hfold.2.trans hstep.2⟩

theorem foldStream_error_mem (es : List ProviderEvent) (e : String)
    (h : ProviderEvent.error e ∈ es) : ∀ st : TurnState,
    AgentEvent.error e ∈ (foldStream st es).2 := by
  induction es with
  | nil => simp at h
  | cons ev rest ih =>
    intro st
    simp only [foldStream, List.mem_append]
    rcases List.mem_cons.mp h with rfl | h'
    · exact Or.inl (by simp [stepEvent])
    · exact Or.inr (ih h' _)

theorem foldStream_streamKind (es : List ProviderEvent) : ∀ st : TurnState,
    ∀ x ∈ (foldStream st es).2, x.isStreamKind = true := by
  induction es with
  | nil => intro st x hx; simp [foldStream] at hx
  | cons ev rest ih =>
    intro st x hx
    simp only [foldStream, List.mem_append] at hx
    rcases hx with hx | hx
    · exact stepEvent_events_streamKind st ev x hx
    · exact ih _ x hx

/-- C2 (amended): when the provider stream yields an `error` event,
terminates normally, and contains no `complete` event, and cancellation is
never observed, the run emits that `error` event but does **not** terminate
with `done(error)`: it still appends and emits the assistant message and
then emits `done` with the accumulated finish reason (`end_turn`),
executing no tool invocations parsed in that turn (every event before the
trailing `message`/`done` pair is a stream-kind event, so in particular no
`toolResult` is emitted). -/
theorem claim_c2_amended (tools : Tools) (provider : Nat → TurnStream)
    (maxTurns abortAt : Nat) (content : String) (es : List ProviderEvent) (e : String)
    (hprov : provider 0 = ⟨es, none⟩)
    (hmax : 0 < maxTurns)
    (hab : es.length < abortAt)
    (hnc : ∀ r, ProviderEvent.complete r ∉ es)
    (he : ProviderEvent.error e ∈ es) :
    ∃ evs m, runAgentEvents tools provider maxTurns abortAt content =
        evs ++ [AgentEvent.message m, AgentEvent.done .endTurn none] ∧
      AgentEvent.error e ∈ evs ∧ ∀ x ∈ evs, x.isStreamKind = true := by
  obtain ⟨rem, rfl⟩ : ∃ rem, maxTurns = rem + 1 := ⟨maxTurns - 1, by omega⟩
  have hab0 : abortedAt abortAt 0 = false := by
    simp only [abortedAt, decide_eq_false_iff_not, not_le]
    omega
  have hfr := foldStream_fr_usage es hnc initTurnState
  have hproc := processStream_no_abort abortAt initTurnState 0 es
    (by simpa using hab)
  refine ⟨(foldStream initTurnState es).2,
    { role := .assistant
      content := (foldStream initTurnState es).1.assistantContent
      toolCalls := if (foldStream initTurnState es).1.toolCalls.isEmpty then none
        else some (foldStream initTurnState es).1.toolCalls
      toolResults := none
      usage := (foldStream initTurnState es).1.usage },
    ?_, foldStream_error_mem es e he _, foldStream_streamKind es _⟩
  have hfr1 : (foldStream initTurnState es).1.finishReason = .endTurn := hfr.1
  have hfr2 : (foldStream initTurnState es).1.usage = none := hfr.2
  show (runTurns tools provider abortAt 0 (rem + 1) 0 _).1 = _
  simp only [runTurns, hab0, Bool.false_eq_true, if_false, hprov, hproc]
  rw [hfr1, hfr2]
  simp

/-- Witness for C2 (amended) at a concrete run: a single-event stream
`[error "boom"]`. -/
theorem claim_c2_amended_witness :
    ∃ evs m, runAgentEvents (fun _ => none)
        (fun _ => ⟨[.error "boom"], none⟩) 50 1000 "hi" =
        evs ++ [AgentEvent.message m, AgentEvent.done .endTurn none] ∧
      AgentEvent.error "boom" ∈ evs ∧ ∀ x ∈ evs, x.isStreamKind = true :=
  claim_c2_amended (fun _ => none) (fun _ => ⟨[.error "boom"], none⟩) 50 1000 "hi"
    [.error "boom"] "boom" rfl (by omega) (by simp) (by simp) (by simp)

/-- C2 counterexample: with provider stream `[error "boom"]` (and no
cancellation) the run does not emit `done(error)` after the `error` event —
it emits a `message` and then `done(end_turn)`, contradicting the claim's
"followed by done(error)". -/
theorem claim_c2_counterexample :
    runAgentEvents (fun _ => none) (fun _ => ⟨[.error "boom"], none⟩) 50 1000 "hi" =
      [.error "boom", .message ⟨.assistant, "", none, none, none⟩,
        .done .endTurn none] ∧
    ∀ u, AgentEvent.done .error u ∉
      runAgentEvents (fun _ => none) (fun _ => ⟨[.error "boom"], none⟩) 50 1000 "hi" := by
  refine ⟨rfl, ?_⟩
  intro u h
  rw [show runAgentEvents (fun _ => none) (fun _ => ⟨[.error "boom"], none⟩) 50 1000 "hi" =
    [.error "boom", .message ⟨.assistant, "", none, none, none⟩,
      .done .endTurn none] from rfl] at h
  simp at h

/-- A stream that throws just as the abort is observed (the abort arrives
during the await that raises): the turn yields the processed events and
then exactly one `done(canceled)` (agent.ts:234-237). -/
theorem processStream_throw_canceled (err : String) (es : List ProviderEvent) :
    ∀ (abortAt : Nat) (st : TurnState) (t : Nat),
    t + es.length < abortAt → abortAt ≤ t + es.length + 1 →
    processStream abortAt st t es (some err) =
      ((foldStream st es).2 ++ [.done .canceled none], t + es.length + 1,
        .canceledDone) := by
  induction es with
  | nil =>
    intro abortAt st t h1 h2
    have hab : abortedAt abortAt (t + 1) = true := by
      simp only [abortedAt, decide_eq_true_eq]
      simp only [List.length_nil] at h1 h2
      omega
    simp [processStream, hab, foldStream]
  | cons ev rest ih =>
    intro abortAt st t h1 h2
    simp only [List.length_cons] at h1 h2
    have hne : abortedAt abortAt (t + 1) = false := by
      simp only [abortedAt, decide_eq_false_iff_not, not_le]
      omega
    have hrec := ih abortAt (stepEvent st ev).1 (t + 1) (by omega) (by omega)
    simp only [processStream, hne, Bool.false_eq_true, if_false, hrec, foldStream,
      List.length_cons, Prod.mk.injEq]
    refine ⟨by simp, by omega, trivial⟩

/-- C3 (amended): a run whose cancellation token is aborted before the
first turn-start check yields exactly one `done` and its finish reason is
`canceled`; a run whose first-turn provider stream throws at the moment the
abort is observed yields the processed stream events followed by exactly
one `done(canceled)` and no `message` event; in particular scenario S4 —
a `content_delta` followed by a provider that throws once the abort is
observed — yields `content` then `done(canceled)`.  (When the abort is
instead observed at the per-event check inside the provider loop, the loop
breaks and emits the assistant `message` and `done` with the accumulated
finish reason, not `done(canceled)` — see the counterexample.) -/
theorem claim_c3_amended :
    (∀ (tools : Tools) (provider : Nat → TurnStream) (maxTurns : Nat)
      (content : String), 0 < maxTurns →
      runAgentEvents tools provider maxTurns 0 content = [.done .canceled none]) ∧
    (∀ (tools : Tools) (provider : Nat → TurnStream) (maxTurns : Nat)
      (content : String) (es : List ProviderEvent) (err : String),
      provider 0 = ⟨es, some err⟩ → 0 < maxTurns →
      runAgentEvents tools provider maxTurns (es.length + 1) content =
        (foldStream initTurnState es).2 ++ [.done .canceled none]) ∧
    runAgentEvents (fun _ => none)
      (fun _ => ⟨[.contentDelta (some "start...")], some "aborted"⟩) 50 2 "hi" =
      [.content (some "start..."), .done .canceled none] := by
  refine ⟨?_, ?_, rfl⟩
  · intro tools provider maxTurns content hmax
    obtain ⟨rem, rfl⟩ : ∃ rem, maxTurns = rem + 1 := ⟨maxTurns - 1, by omega⟩
    rfl
  · intro tools provider maxTurns content es err hprov hmax
    obtain ⟨rem, rfl⟩ : ∃ rem, maxTurns = rem + 1 := ⟨maxTurns - 1, by omega⟩
    have hab0 : abortedAt (es.length + 1) 0 = false := by
      simp [abortedAt]
    have hproc := processStream_throw_canceled err es (es.length + 1)
      initTurnState 0 (by omega) (by omega)
    show (runTurns tools provider (es.length + 1) 0 (rem + 1) 0 _).1 = _
    simp only [runTurns, hab0, Bool.false_eq_true, if_false, hprov, hproc]

/-- Witness for C3 (amended) at concrete runs: a token aborted before the
run, and scenario S4. -/
theorem claim_c3_amended_witness :
    runAgentEvents (fun _ => none) (fun _ => ⟨[], none⟩) 50 0 "x" =
      [.done .canceled none] ∧
    runAgentEvents (fun _ => none)
      (fun _ => ⟨[.contentDelta (some "start...")], some "aborted"⟩) 50 2 "hi" =
      (foldStream initTurnState [.contentDelta (some "start...")]).2 ++
        [.done .canceled none] :=
  ⟨claim_c3_amended.1 (fun _ => none) (fun _ => ⟨[], none⟩) 50 "x" (by omega),
   claim_c3_amended.2.1 (fun _ => none)
     (fun _ => ⟨[.contentDelta (some "start...")], some "aborted"⟩) 50 "hi"
     [.contentDelta (some "start...")] "aborted" rfl (by omega)⟩

/-- C3 counterexample: the token is aborted at step 2, which the loop
observes at the per-event check when the second `content_delta` arrives; the
run nevertheless emits a `message` event and `done(end_turn)` — not
`done(canceled)` — contradicting the claim that every run with an aborted
token finishes with reason `canceled`. -/
theorem claim_c3_counterexample :
    runAgentEvents (fun _ => none)
      (fun _ => ⟨[.contentDelta (some "a"), .contentDelta (some "b")], none⟩) 50 2 "hi" =
      [.content (some "a"), .message ⟨.assistant, "a", none, none, none⟩,
        .done .endTurn none] ∧
    (∀ u, AgentEvent.done .canceled u ∉
      runAgentEvents (fun _ => none)
        (fun _ => ⟨[.contentDelta (some "a"), .contentDelta (some "b")], none⟩) 50 2 "hi") ∧
    abortedAt 2 2 = true := by
  refine ⟨rfl, ?_, rfl⟩
  intro u h
  rw [show runAgentEvents (fun _ => none)
      (fun _ => ⟨[.contentDelta (some "a"), .contentDelta (some "b")], none⟩) 50 2 "hi" =
      [.content (some "a"), .message ⟨.assistant, "a", none, none, none⟩,
        .done .endTurn none] from rfl] at h
  simp at h

theorem toolCallEvents_append (a b : List AgentEvent) :
    toolCallEvents (a ++ b) = toolCallEvents a ++ toolCallEvents b := by
  simp [toolCallEvents, List.filterMap_append]

theorem mergeCalls_toolCalls (l : List ToolCall) : ∀ st : TurnState,
    (mergeCalls st l).1.toolCalls = st.toolCalls ++ toolCallEvents (mergeCalls st l).2 := by
  induction l with
  | nil => intro st; simp [mergeCalls, toolCallEvents]
  | cons tc rest ih =>
    intro st
    by_cases h : st.toolCalls.any (fun t => t.id = tc.id)
    · simp only [mergeCalls, h, if_true]
      exact ih st
    · have h' : st.toolCalls.any (fun t => t.id = tc.id) = false := by simpa using h
      simp only [mergeCalls, h', Bool.false_eq_true, if_false]
      rw [ih { st with toolCalls := st.toolCalls ++ [tc] }]
      simp [toolCallEvents, List.filterMap_cons]

theorem stepEvent_toolCalls (st : TurnState) (ev : ProviderEvent) :
    (stepEvent st ev).1.toolCalls = st.toolCalls ++ toolCallEvents (stepEvent st ev).2 := by
  cases ev with
  | toolUseStop =>
    cases h : st.currentToolCall <;> simp [stepEvent, h, toolCallEvents]
  | complete r =>
    cases r with
    | none => simp [stepEvent, toolCallEvents]
    | some resp => simpa [stepEvent] using mergeCalls_toolCalls resp.toolCalls _
  | _ => simp [stepEvent, toolCallEvents]

theorem foldStream_toolCalls (es : List ProviderEvent) : ∀ st : TurnState,
    (foldStream st es).1.toolCalls = st.toolCalls ++ toolCallEvents (foldStream st es).2 := by
  induction es with
  | nil => intro st; simp [foldStream, toolCallEvents]
  | cons ev rest ih =>
    intro st
    simp only [foldStream, toolCallEvents_append]
    rw [ih (stepEvent st ev).1, stepEvent_toolCalls]
    simp

theorem execToolCalls_callIds (tools : Tools) (abortAt : Nat) :
    ∀ (l : List ToolCall) (t : Nat),
    ((execToolCalls tools abortAt t l).1).map (fun r => r.callId) =
      l.map (fun tc => tc.id) := by
  intro l
  induction l with
  | nil => intro t; rfl
  | cons tc rest ih =>
    intro t
    by_cases h : abortedAt abortAt t
    · simp [execToolCalls, h, ih]
    · have h' : abortedAt abortAt t = false := by simpa using h
      cases htool : tools tc.name with
      | none => simp [execToolCalls, h', htool, ih]
      | some f =>
        cases hf : f tc.input with
        | ok c b => simp [execToolCalls, h', htool, hf, ih]
        | throws m => simp [execToolCalls, h', htool, hf, ih]

theorem execToolCalls_aborted (tools : Tools) (abortAt t : Nat)
    (h : abortedAt abortAt t = true) : ∀ l : List ToolCall,
    execToolCalls tools abortAt t l =
      (l.map (fun tc => ⟨tc.id, "Canceled", true⟩), t) := by
  intro l
  induction l with
  | nil => rfl
  | cons tc rest ih => simp [execToolCalls, h, ih]

theorem execToolCalls_no_abort (tools : Tools) : ∀ (l : List ToolCall)
    (abortAt t : Nat), t + l.length ≤ abortAt →
    (execToolCalls tools abortAt t l).1 = l.map (pureOutcome tools) := by
  intro l
  induction l with
  | nil => intro abortAt t _; rfl
  | cons tc rest ih =>
    intro abortAt t h
    simp only [List.length_cons] at h
    have h' : abortedAt abortAt t = false := by
      simp only [abortedAt, decide_eq_false_iff_not, not_le]
      omega
    cases htool : tools tc.name with
    | none =>
      simp [execToolCalls, h', htool, pureOutcome, ih abortAt t (by omega)]
    | some f =>
      cases hf : f tc.input with
      | ok c b =>
        simp [execToolCalls, h', htool, hf, pureOutcome,
          ih abortAt (t + 1) (by omega)]
      | throws m =>
        simp [execToolCalls, h', htool, hf, pureOutcome,
          ih abortAt (t + 1) (by omega)]

/-- Shape of a turn whose stream completes normally with finish reason
`tool_use` and a nonempty invocation list, without observed cancellation:
the assistant `message` (whose `toolCalls` is the assembled list) is
followed by exactly one `toolResult` per invocation, in the same order,
and the loop continues into the next turn. -/
theorem runTurns_toolUse_shape (tools : Tools) (provider : Nat → TurnStream)
    (abortAt turn rem t : Nat) (msgs : List Message) (es : List ProviderEvent)
    (hprov : provider turn = ⟨es, none⟩)
    (hab : t + es.length < abortAt)
    (hfr : (foldStream initTurnState es).1.finishReason = .toolUse)
    (hne : (foldStream initTurnState es).1.toolCalls ≠ []) :
    (runTurns tools provider abortAt turn (rem + 1) t msgs).1 =
      (foldStream initTurnState es).2 ++
      [AgentEvent.message (turnAssistantMsg es)] ++
      ((execToolCalls tools abortAt (t + es.length + 1)
        (foldStream initTurnState es).1.toolCalls).1).map AgentEvent.toolResult ++
      (runTurns tools provider abortAt (turn + 1) rem
        (execToolCalls tools abortAt (t + es.length + 1)
          (foldStream initTurnState es).1.toolCalls).2
        (msgs ++ [turnAssistantMsg es] ++ [turnToolMsg tools abortAt t es])).1 ∧
    (turnAssistantMsg es).toolCalls = some (foldStream initTurnState es).1.toolCalls := by
  have habt : abortedAt abortAt t = false := by
    simp only [abortedAt, decide_eq_false_iff_not, not_le]
    omega
  have hproc := processStream_no_abort abortAt initTurnState t es hab
  have hempty : (foldStream initTurnState es).1.toolCalls.isEmpty = false := by
    simpa [List.isEmpty_iff] using hne
  have hcond : ¬((foldStream initTurnState es).1.toolCalls.isEmpty = true ∨
      (foldStream initTurnState es).1.finishReason ≠ FinishReason.toolUse) := by
    push_neg
    exact ⟨by simp [hempty], hfr⟩
  constructor
  · simp only [runTurns, habt, Bool.false_eq_true, if_false, hprov, hproc]
    rw [if_neg hcond]
    simp [turnAssistantMsg, turnToolMsg]
  · simp [turnAssistantMsg, hempty]

/-- C4: for every turn, (1) the `toolCall` events emitted during the stream
are exactly, in order, the invocation list assembled into the assistant
message (the `complete`-merge path dedups by invocation id); (2)
`executeToolCalls` produces exactly one outcome per invocation, ordered
identically, with `callId` equal to the invocation id; (3) when
cancellation is observed the outcome is the synthetic `Canceled` error; (4)
when cancellation is never observed each outcome is the registered tool's
result, the synthetic `Unknown tool: <name>` error for an unregistered
name, or an error wrapping the thrown message; (5) a turn with finish
reason `tool_use` and n invocations emits the assistant `message` (carrying
those n invocations) followed by exactly one `toolResult` per invocation in
the same order. -/
theorem claim_c4 :
    (∀ es : List ProviderEvent,
      toolCallEvents (foldStream initTurnState es).2 =
        (foldStream initTurnState es).1.toolCalls) ∧
    (∀ (tools : Tools) (abortAt t : Nat) (l : List ToolCall),
      ((execToolCalls tools abortAt t l).1).map (fun r => r.callId) =
        l.map (fun tc => tc.id)) ∧
    (∀ (tools : Tools) (abortAt t : Nat) (l : List ToolCall),
      abortedAt abortAt t = true →
      execToolCalls tools abortAt t l =
        (l.map (fun tc => ⟨tc.id, "Canceled", true⟩), t)) ∧
    (∀ (tools : Tools) (abortAt t : Nat) (l : List ToolCall),
      t + l.length ≤ abortAt →
      (execToolCalls tools abortAt t l).1 = l.map (pureOutcome tools)) ∧
    (∀ (tools : Tools) (provider : Nat → TurnStream) (abortAt turn rem t : Nat)
      (msgs : List Message) (es : List ProviderEvent),
      provider turn = ⟨es, none⟩ → t + es.length < abortAt →
      (foldStream initTurnState es).1.finishReason = .toolUse →
      (foldStream initTurnState es).1.toolCalls ≠ [] →
      (runTurns tools provider abortAt turn (rem + 1) t msgs).1 =
        (foldStream initTurnState es).2 ++
        [AgentEvent.message (turnAssistantMsg es)] ++
        ((execToolCalls tools abortAt (t + es.length + 1)
          (foldStream initTurnState es).1.toolCalls).1).map AgentEvent.toolResult ++
        (runTurns tools provider abortAt (turn + 1) rem
          (execToolCalls tools abortAt (t + es.length + 1)
            (foldStream initTurnState es).1.toolCalls).2
          (msgs ++ [turnAssistantMsg es] ++ [turnToolMsg tools abortAt t es])).1 ∧
      (turnAssistantMsg es).toolCalls = some (foldStream initTurnState es).1.toolCalls) := by
  refine ⟨?_, ?_, ?_, ?_, ?_⟩
  · intro es
    have h := foldStream_toolCalls es initTurnState
    simpa [initTurnState] using h.symm
  · intro tools abortAt t l
    exact execToolCalls_callIds tools abortAt l t
  · intro tools abortAt t l h
    exact execToolCalls_aborted tools abortAt t h l
  · intro tools abortAt t l h
    exact execToolCalls_no_abort tools l abortAt t h
  · intro tools provider abortAt turn rem t msgs es hprov hab hfr hne
    exact runTurns_toolUse_shape tools provider abortAt turn rem t msgs es hprov hab hfr hne

/-- Witness for C4 at concrete inputs: a canceled batch, an uncanceled
batch (registered, unknown, and throwing tools), and a concrete `tool_use`
turn. -/
theorem claim_c4_witness :
    execToolCalls toolsEx 0 5 l0c =
      (l0c.map (fun tc => ⟨tc.id, "Canceled", true⟩), 5) ∧
    (execToolCalls toolsEx 100 0 l0c).1 = l0c.map (pureOutcome toolsEx) ∧
    (turnAssistantMsg es0c).toolCalls = some (foldStream initTurnState es0c).1.toolCalls :=
  ⟨claim_c4.2.2.1 toolsEx 0 5 l0c rfl,
   claim_c4.2.2.2.1 toolsEx 100 0 l0c (by decide),
   (claim_c4.2.2.2.2 toolsEx (fun _ => ⟨es0c, none⟩) 1000 0 0 0 [] es0c rfl
     (by decide) (by decide) (by decide)).2⟩

theorem TurnState.ext' {st1 st2 : TurnState}
    (h : InputOnlyDiff st1 st2) (hi : st1.currentToolInput = st2.currentToolInput) :
    st1 = st2 := by
  obtain ⟨a1, f1, t1, i1, c1, u1⟩ := st1
  obtain ⟨a2, f2, t2, i2, c2, u2⟩ := st2
  obtain ⟨h1, h2, h3, h4, h5⟩ := h
  simp_all [InputOnlyDiff]

theorem mergeCalls_toolCalls_events_eq (l : List ToolCall) :
    ∀ {st1 st2 : TurnState}, st1.toolCalls = st2.toolCalls →
    (mergeCalls st1 l).2 = (mergeCalls st2 l).2 ∧
    (mergeCalls st1 l).1.toolCalls = (mergeCalls st2 l).1.toolCalls := by
  induction l with
  | nil => intro st1 st2 h; exact ⟨rfl, h⟩
  | cons tc rest ih =>
    intro st1 st2 h
    by_cases hc : st1.toolCalls.any (fun t => t.id = tc.id)
    · have hc2 : st2.toolCalls.any (fun t => t.id = tc.id) := h ▸ hc
      simp only [mergeCalls, hc, hc2, if_true]
      exact ih h
    · have hc' : st1.toolCalls.any (fun t => t.id = tc.id) = false := by simpa using hc
      have hc2 : st2.toolCalls.any (fun t => t.id = tc.id) = false := h ▸ hc'
      simp only [mergeCalls, hc', hc2, Bool.false_eq_true, if_false]
      have := @ih { st1 with toolCalls := st1.toolCalls ++ [tc] }
        { st2 with toolCalls := st2.toolCalls ++ [tc] } (by simp [h])
      exact ⟨by rw [this.1], this.2⟩

theorem mergeCalls_only_toolCalls (l : List ToolCall) : ∀ st : TurnState,
    (mergeCalls st l).1 = { st with toolCalls := (mergeCalls st l).1.toolCalls } := by
  induction l with
  | nil => intro st; rfl
  | cons tc rest ih =>
    intro st
    by_cases hc : st.toolCalls.any (fun t => t.id = tc.id)
    · simp only [mergeCalls, hc, if_true]
      exact ih st
    · have hc' : st.toolCalls.any (fun t => t.id = tc.id) = false := by simpa using hc
      simp only [mergeCalls, hc', Bool.false_eq_true, if_false]
      exact ih { st with toolCalls := st.toolCalls ++ [tc] }

theorem stepEvent_equiv (ev : ProviderEvent) {st1 st2 : TurnState}
    (h : StreamEquiv st1 st2) :
    StreamEquiv (stepEvent st1 ev).1 (stepEvent st2 ev).1 ∧
    (stepEvent st1 ev).2 = (stepEvent st2 ev).2 := by
  obtain ⟨hd, hio⟩ := h
  rcases hio with hio | hnone
  · have : st1 = st2 := TurnState.ext' hd hio
    subst this
    exact ⟨⟨⟨rfl, rfl, rfl, rfl, rfl⟩, Or.inl rfl⟩, rfl⟩
  · obtain ⟨a1, f1, tcs1, i1, c1, u1⟩ := st1
    obtain ⟨a2, f2, tcs2, i2, c2, u2⟩ := st2
    obtain ⟨h1, h2, h3, h4, h5⟩ := hd
    simp only at h1 h2 h3 h4 h5 hnone
    subst h1 h2 h3 h5 hnone
    subst h4
    cases ev with
    | thinkingDelta c => exact ⟨⟨⟨rfl, rfl, rfl, rfl, rfl⟩, Or.inr rfl⟩, rfl⟩
    | contentDelta c => exact ⟨⟨⟨rfl, rfl, rfl, rfl, rfl⟩, Or.inr rfl⟩, rfl⟩
    | toolUseStart tc => exact ⟨⟨⟨rfl, rfl, rfl, rfl, rfl⟩, Or.inl rfl⟩, rfl⟩
    | toolUseDelta c => exact ⟨⟨⟨rfl, rfl, rfl, rfl, rfl⟩, Or.inr rfl⟩, rfl⟩
    | toolUseStop => exact ⟨⟨⟨rfl, rfl, rfl, rfl, rfl⟩, Or.inr rfl⟩, rfl⟩
    | error e => exact ⟨⟨⟨rfl, rfl, rfl, rfl, rfl⟩, Or.inr rfl⟩, rfl⟩
    | complete r =>
      cases r with
      | none => exact ⟨⟨⟨rfl, rfl, rfl, rfl, rfl⟩, Or.inr rfl⟩, rfl⟩
      | some resp =>
        have hm := @mergeCalls_toolCalls_events_eq resp.toolCalls
          ⟨a1, resp.finishReason, tcs1, i1, none, some resp.usage⟩
          ⟨a1, resp.finishReason, tcs1, i2, none, some resp.usage⟩ rfl
        have ho1 := mergeCalls_only_toolCalls resp.toolCalls
          ⟨a1, resp.finishReason, tcs1, i1, none, some resp.usage⟩
        have ho2 := mergeCalls_only_toolCalls resp.toolCalls
          ⟨a1, resp.finishReason, tcs1, i2, none, some resp.usage⟩
        refine ⟨⟨?_, Or.inr ?_⟩, hm.1⟩
        · show InputOnlyDiff
            (mergeCalls ⟨a1, resp.finishReason, tcs1, i1, none, some resp.usage⟩
              resp.toolCalls).1
            (mergeCalls ⟨a1, resp.finishReason, tcs1, i2, none, some resp.usage⟩
              resp.toolCalls).1
          rw [InputOnlyDiff, ho1, ho2]
          exact ⟨rfl, rfl, hm.2, rfl, rfl⟩
        · show (mergeCalls ⟨a1, resp.finishReason, tcs1, i1, none, some resp.usage⟩
              resp.toolCalls).1.currentToolCall = none
          rw [ho1]

theorem foldStream_equiv (es : List ProviderEvent) :
    ∀ {st1 st2 : TurnState}, StreamEquiv st1 st2 →
    StreamEquiv (foldStream st1 es).1 (foldStream st2 es).1 ∧
    (foldStream st1 es).2 = (foldStream st2 es).2 := by
  induction es with
  | nil => intro st1 st2 h; exact ⟨h, rfl⟩
  | cons ev rest ih =>
    intro st1 st2 h
    have hstep := stepEvent_equiv ev h
    have hrest := ih hstep.1
    exact ⟨hrest.1, by simp only [foldStream, hstep.2, hrest.2]⟩

/-- C10: malformed tool-use framing is silently ignored by the turn loop.
A `tool_use_stop` arriving with no open invocation is a strict no-op (the
processing of the remaining stream is byte-for-byte the same); a
`tool_use_delta` arriving with no open invocation changes no emitted event
and no accumulator field other than the dead `currentToolInput` buffer (in
particular the assembled invocation list is unchanged, so no `toolCall`
event is emitted and no invocation is appended to the assistant message);
and processing is a total function, so the loop cannot throw on such
input. -/
theorem claim_c10 :
    (∀ (st : TurnState) (rest : List ProviderEvent), st.currentToolCall = none →
      foldStream st (ProviderEvent.toolUseStop :: rest) = foldStream st rest) ∧
    (∀ (st : TurnState) (c : Option String) (rest : List ProviderEvent),
      st.currentToolCall = none →
      (foldStream st (ProviderEvent.toolUseDelta c :: rest)).2 =
        (foldStream st rest).2 ∧
      InputOnlyDiff (foldStream st (ProviderEvent.toolUseDelta c :: rest)).1
        (foldStream st rest).1) := by
  constructor
  · intro st rest h
    simp [foldStream, stepEvent, h]
  · intro st c rest h
    have hq : StreamEquiv { st with currentToolInput := st.currentToolInput ++ c.getD "" } st := by
      exact ⟨⟨rfl, rfl, rfl, rfl, rfl⟩, Or.inr h⟩
    have := foldStream_equiv rest hq
    constructor
    · show ((stepEvent st (ProviderEvent.toolUseDelta c)).2 ++
        (foldStream (stepEvent st (ProviderEvent.toolUseDelta c)).1 rest).2) = _
      simpa [stepEvent] using this.2
    · exact (foldStream_equiv rest hq).1.1

/-- Witness for C10 at a concrete stream: an orphan `tool_use_stop` and an
orphan `tool_use_delta` in front of a `content_delta`. -/
theorem claim_c10_witness :
    foldStream initTurnState [ProviderEvent.toolUseStop, .contentDelta (some "x")] =
      foldStream initTurnState [.contentDelta (some "x")] ∧
    (foldStream initTurnState
      (ProviderEvent.toolUseDelta (some "junk") :: [.contentDelta (some "x")])).2 =
      (foldStream initTurnState [.contentDelta (some "x")]).2 :=
  ⟨claim_c10.1 initTurnState [.contentDelta (some "x")] rfl,
   (claim_c10.2 initTurnState (some "junk") [.contentDelta (some "x")] rfl).1⟩

theorem runHandlers_no_throw : ∀ l : List Handler,
    (∀ h ∈ l, h.throws = false) → runHandlers l = (l.map (fun h => h.id), none) := by
  intro l
  induction l with
  | nil => intro _; rfl
  | cons h rest ih =>
    intro hl
    have hh : h.throws = false := hl h (by simp)
    simp [runHandlers, hh, ih fun x hx => hl x (by simp [hx])]

theorem runHandlers_append (a b : List Handler) :
    runHandlers (a ++ b) =
      match (runHandlers a).2 with
      | some _ => runHandlers a
      | none => ((runHandlers a).1 ++ (runHandlers b).1, (runHandlers b).2) := by
  induction a with
  | nil => simp [runHandlers]
  | cons h rest ih =>
    by_cases hh : h.throws
    · simp [runHandlers, hh]
    · have hh' : h.throws = false := by simpa using hh
      cases hs : (runHandlers rest).2 with
      | none => simp [runHandlers, hh', ih, hs]
      | some _ => simp [runHandlers, hh', ih, hs]

theorem runHandlers_first_throw : ∀ (pre : List Handler) (t : Handler)
    (post : List Handler), (∀ h ∈ pre, h.throws = false) → t.throws = true →
    runHandlers (pre ++ t :: post) = (pre.map (fun h => h.id) ++ [t.id], some t.id) := by
  intro pre
  induction pre with
  | nil => intro t post _ ht; simp [runHandlers, ht]
  | cons h rest ih =>
    intro t post hpre ht
    have hh : h.throws = false := hpre h (by simp)
    simp [runHandlers, hh, ih t post (fun x hx => hpre x (by simp [hx])) ht]

/-- `emit` behaves as a single in-order pass over specific-then-wildcard
handlers that stops at the first throwing handler. -/
theorem busEmit_eq_runHandlers (bus : BusHandlers) (event : String) :
    busEmit bus event = runHandlers (allHandlers bus event) := by
  rw [allHandlers, runHandlers_append]
  by_cases he : event = "*"
  · subst he
    cases hs : (runHandlers (getHandlers bus "*")).2 with
    | none => simp [busEmit, hs, runHandlers]
    | some e =>
      simp only [busEmit, hs]
      rw [Prod.ext_iff]
      exact ⟨rfl, hs.symm⟩
  · cases hs : (runHandlers (getHandlers bus event)).2 with
    | none => simp [busEmit, he, hs]
    | some e =>
      simp only [busEmit, hs, he, ne_eq, not_false_iff]
      rw [Prod.ext_iff]
      exact ⟨rfl, hs.symm⟩

/-- C6 (amended): handlers are invoked in registration order, specific set
first and then the wildcard set for non-`*` emissions; when no addressed
handler throws, every one of them receives the data and no exception
escapes; but a handler exception escapes `emit` and prevents delivery to
every subsequent handler — delivery stops at (and includes) the first
throwing handler. -/
theorem claim_c6_amended :
    (∀ (bus : BusHandlers) (event : String),
      busEmit bus event = runHandlers (allHandlers bus event)) ∧
    (∀ (bus : BusHandlers) (event : String),
      (∀ h ∈ allHandlers bus event, h.throws = false) →
      busEmit bus event = ((allHandlers bus event).map (fun h => h.id), none)) ∧
    (∀ (bus : BusHandlers) (event : String) (pre : List Handler) (t : Handler)
      (post : List Handler), allHandlers bus event = pre ++ t :: post →
      (∀ h ∈ pre, h.throws = false) → t.throws = true →
      busEmit bus event = (pre.map (fun h => h.id) ++ [t.id], some t.id)) := by
  refine ⟨busEmit_eq_runHandlers, ?_, ?_⟩
  · intro bus event h
    rw [busEmit_eq_runHandlers]
    exact runHandlers_no_throw _ h
  · intro bus event pre t post hsplit hpre ht
    rw [busEmit_eq_runHandlers, hsplit]
    exact runHandlers_first_throw pre t post hpre ht

/-- Witness for C6 (amended) at a concrete bus. -/
theorem claim_c6_amended_witness :
    busEmit [("e", [⟨1, false⟩, ⟨2, false⟩]), ("*", [⟨3, false⟩])] "e" =
      ([1, 2, 3], none) ∧
    busEmit [("e", [⟨1, false⟩, ⟨2, true⟩, ⟨4, false⟩]), ("*", [⟨3, false⟩])] "e" =
      ([1, 2], some 2) := by
  constructor
  · exact claim_c6_amended.2.1 [("e", [⟨1, false⟩, ⟨2, false⟩]), ("*", [⟨3, false⟩])]
      "e" (by decide)
  · exact claim_c6_amended.2.2 [("e", [⟨1, false⟩, ⟨2, true⟩, ⟨4, false⟩]),
      ("*", [⟨3, false⟩])] "e" [⟨1, false⟩] ⟨2, true⟩ [⟨4, false⟩, ⟨3, false⟩]
      (by decide) (by decide) rfl

/-- C6 counterexample: on a bus with two handlers for `"e"`, the first of
which throws, `emit` delivers only to the first handler — the second never
receives the data, and the exception escapes `emit`. -/
theorem claim_c6_counterexample :
    busEmit [("e", [⟨1, true⟩, ⟨2, false⟩])] "e" = ([1], some 1) ∧
    2 ∉ (busEmit [("e", [⟨1, true⟩, ⟨2, false⟩])] "e").1 := by
  decide

theorem strStartsWith_iff {s pre : String} :
    strStartsWith s pre = true ↔ pre.data <+: s.data :=
  List.isPrefixOf_iff_prefix

theorem commonPrefixLen_le (a : List String) : ∀ b, commonPrefixLen a b ≤ a.length := by
  induction a with
  | nil => intro b; cases b <;> simp [commonPrefixLen]
  | cons x as ih =>
    intro b
    cases b with
    | nil => simp [commonPrefixLen]
    | cons y bs =>
      by_cases h : x = y
      · simp only [commonPrefixLen, h, if_true, List.length_cons]
        exact Nat.succ_le_succ (ih bs)
      · simp [commonPrefixLen, h]

theorem commonPrefixLen_eq_iff (a : List String) :
    ∀ b, commonPrefixLen a b = a.length ↔ a <+: b := by
  induction a with
  | nil => intro b; cases b <;> simp [commonPrefixLen]
  | cons x as ih =>
    intro b
    cases b with
    | nil => simp [commonPrefixLen]
    | cons y bs =>
      by_cases h : x = y
      · subst h
        simp only [commonPrefixLen, if_true, List.length_cons, Nat.succ_inj,
          List.cons_prefix_cons, true_and]
        exact ih bs
      · simp [commonPrefixLen, h, List.cons_prefix_cons]

theorem joinSlash_dotdot (xs : List String) :
    strStartsWith (joinSlash (".." :: xs)) ".." = true := by
  cases xs with
  | nil => decide
  | cons y ys =>
    rw [strStartsWith_iff]
    have hd : (joinSlash (".." :: y :: ys)).data =
        '.' :: '.' :: '/' :: (joinSlash (y :: ys)).data := by
      show (".." ++ "/" ++ joinSlash (y :: ys)).data = _
      rw [String.data_append, String.data_append]
      rfl
    rw [hd]
    exact ⟨'/' :: (joinSlash (y :: ys)).data, rfl⟩

theorem joinSlash_head_not_dotdot {s : String}
    (hs : strStartsWith s ".." = false) (rest : List String) :
    strStartsWith (joinSlash (s :: rest)) ".." = false := by
  cases rest with
  | nil => exact hs
  | cons y ys =>
    rw [← Bool.not_eq_true, strStartsWith_iff]
    intro h
    have hd : (joinSlash (s :: y :: ys)).data =
        s.data ++ '/' :: (joinSlash (y :: ys)).data := by
      show (s ++ "/" ++ joinSlash (y :: ys)).data = _
      rw [String.data_append, String.data_append]
      simp
    rw [hd, show (".." : String).data = ['.', '.'] from rfl] at h
    obtain ⟨t, ht⟩ := h
    rw [← Bool.not_eq_true, strStartsWith_iff] at hs
    rcases hsd : s.data with _ | ⟨c1, _ | ⟨c2, d⟩⟩
    · rw [hsd] at ht
      simp at ht
    · rw [hsd] at ht
      simp at ht
    · rw [hsd] at ht
      simp only [List.cons_append, List.cons.injEq] at ht
      obtain ⟨hc1, hc2, _⟩ := ht
      refine hs ?_
      rw [show (".." : String).data = ['.', '.'] from rfl, hsd, ← hc1, ← hc2]
      exact ⟨d, rfl⟩

theorem resolvePath_escape (root : List String) (inputPath : String)
    (h : ¬ root <+: pathResolve root inputPath) :
    resolvePath root inputPath = .error .path_violation := by
  have hk : commonPrefixLen root (pathResolve root inputPath) < root.length := by
    rcases Nat.lt_or_ge (commonPrefixLen root (pathResolve root inputPath))
      root.length with hlt | hge
    · exact hlt
    · exact absurd ((commonPrefixLen_eq_iff root _).mp
        (Nat.le_antisymm (commonPrefixLen_le root _) hge)) h
  obtain ⟨m, hm⟩ : ∃ m, root.length -
      commonPrefixLen root (pathResolve root inputPath) = m + 1 :=
    ⟨root.length - commonPrefixLen root (pathResolve root inputPath) - 1, by omega⟩
  have hrel : strStartsWith (pathRelative root (pathResolve root inputPath)) ".." = true := by
    rw [pathRelative, hm, List.replicate_succ, List.cons_append]
    exact joinSlash_dotdot _
  simp only [resolvePath]
  rw [if_pos (Or.inl hrel)]

theorem resolvePath_inside (root : List String) (inputPath : String)
    (hpre : root <+: pathResolve root inputPath)
    (hfirst : ∀ s, ((pathResolve root inputPath).drop root.length).head? = some s →
      strStartsWith s ".." = false) :
    resolvePath root inputPath = .ok (pathResolve root inputPath) := by
  have hk : commonPrefixLen root (pathResolve root inputPath) = root.length :=
    (commonPrefixLen_eq_iff root _).mpr hpre
  have hrel : strStartsWith (pathRelative root (pathResolve root inputPath)) ".." = false := by
    rw [pathRelative, hk]
    simp only [Nat.sub_self, List.replicate_zero, List.nil_append]
    cases hd : (pathResolve root inputPath).drop root.length with
    | nil => decide
    | cons s rest => exact joinSlash_head_not_dotdot (hfirst s (by rw [hd]; rfl)) rest
  simp only [resolvePath]
  rw [if_neg]
  rintro (hcontra | ⟨_, hcontra⟩) <;> rw [hrel] at hcontra <;> exact absurd hcontra (by simp)

/-- C7 (amended): every input path whose resolution against `rootDir`
escapes `rootDir` is rejected — `isPathAllowed` is false and `resolvePath`
raises `path_violation`; every input path resolving inside `rootDir` whose
first path segment below `rootDir` does not itself begin with the two
characters `..` is accepted — `isPathAllowed` is true and `resolvePath`
returns the resolved absolute path.  (A path strictly inside `rootDir`
whose first segment merely begins with `..`, such as `..foo`, is rejected
by the `relative(...).startsWith('..')` test — see the counterexample.) -/
theorem claim_c7_amended :
    (∀ (root : List String) (inputPath : String),
      ¬ root <+: pathResolve root inputPath →
      resolvePath root inputPath = .error .path_violation ∧
      isPathAllowed root inputPath = false) ∧
    (∀ (root : List String) (inputPath : String),
      root <+: pathResolve root inputPath →
      (∀ s, ((pathResolve root inputPath).drop root.length).head? = some s →
        strStartsWith s ".." = false) →
      resolvePath root inputPath = .ok (pathResolve root inputPath) ∧
      isPathAllowed root inputPath = true) := by
  constructor
  · intro root inputPath h
    have := resolvePath_escape root inputPath h
    exact ⟨this, by simp [isPathAllowed, this]⟩
  · intro root inputPath hpre hfirst
    have := resolvePath_inside root inputPath hpre hfirst
    exact ⟨this, by simp [isPathAllowed, this]⟩

/-- Witness for C7 (amended): `../etc` escapes `/r` and is rejected;
`sub/file.txt` stays inside `/r` and is accepted. -/
theorem claim_c7_amended_witness :
    (resolvePath ["r"] "../etc" = .error .path_violation ∧
      isPathAllowed ["r"] "../etc" = false) ∧
    (resolvePath ["r"] "sub/file.txt" = .ok (pathResolve ["r"] "sub/file.txt") ∧
      isPathAllowed ["r"] "sub/file.txt" = true) := by
  constructor
  · exact claim_c7_amended.1 ["r"] "../etc" (by decide)
  · refine claim_c7_amended.2 ["r"] "sub/file.txt" (by decide) ?_
    intro s hs
    rw [show ((pathResolve ["r"] "sub/file.txt").drop
      (["r"] : List String).length).head? = some "sub" from by decide] at hs
    injection hs with hs
    rw [← hs]
    decide

/-- C7 counterexample: the input `..x` resolves to `/r/..x`, strictly
inside the root `/r`, yet `isPathAllowed` is false and `resolvePath`
raises `path_violation`, because `relative('/r', '/r/..x') = '..x'` starts
with the two characters `..`. -/
theorem claim_c7_counterexample :
    pathResolve ["r"] "..x" = ["r", "..x"] ∧
    ["r"] <+: pathResolve ["r"] "..x" ∧
    pathResolve ["r"] "..x" ≠ ["r"] ∧
    resolvePath ["r"] "..x" = .error .path_violation ∧
    isPathAllowed ["r"] "..x" = false := by
  refine ⟨rfl, ?_, by decide, rfl, rfl⟩
  rw [show pathResolve ["r"] "..x" = ["r", "..x"] from rfl]
  exact ⟨["..x"], rfl⟩

/-- C8: a command whose trimmed, lowercased form starts with a configured
banned prefix is rejected by `validateCommand` regardless of `autoApprove`
and of the allow and safe-read-only lists (the whole configuration is
universally quantified); and the precedence is banned over allowed over
safe-readonly over the default permission-requiring path. -/
theorem claim_c8 :
    (∀ (cfg : CmdConfig) (command : String),
      (∃ b ∈ cfg.bannedCommands,
        strStartsWith (lowerStr (trimStr command)) (lowerStr b) = true) →
      (validateCommand cfg command).allowed = false ∧
      (validateCommand cfg command).needsPermission = false) ∧
    (∀ (cfg : CmdConfig) (command : String) (b : String),
      isCommandBanned cfg command = some b →
      validateCommand cfg command = ⟨false, "Banned command: " ++ b, false⟩) ∧
    (∀ (cfg : CmdConfig) (command : String),
      isCommandBanned cfg command = none →
      isCommandAllowed cfg command = false →
      validateCommand cfg command = ⟨false, "Command not in allowlist", false⟩) ∧
    (∀ (cfg : CmdConfig) (command : String),
      isCommandBanned cfg command = none →
      isCommandAllowed cfg command = true →
      isCommandSafeReadOnly cfg command = true →
      validateCommand cfg command = ⟨true, "safe read-only", false⟩) ∧
    (∀ (cfg : CmdConfig) (command : String),
      isCommandBanned cfg command = none →
      isCommandAllowed cfg command = true →
      isCommandSafeReadOnly cfg command = false →
      validateCommand cfg command = ⟨true, "needs approval", !cfg.autoApprove⟩) := by
  have hbanned : ∀ (cfg : CmdConfig) (command : String) (b : String),
      isCommandBanned cfg command = some b →
      validateCommand cfg command = ⟨false, "Banned command: " ++ b, false⟩ := by
    intro cfg command b h
    simp [validateCommand, h]
  refine ⟨?_, hbanned, ?_, ?_, ?_⟩
  · intro cfg command hex
    have hsome : (isCommandBanned cfg command).isSome = true := by
      rw [isCommandBanned, List.find?_isSome]
      obtain ⟨b, hb, hpre⟩ := hex
      exact ⟨b, hb, hpre⟩
    obtain ⟨b, hb⟩ := Option.isSome_iff_exists.mp hsome
    rw [hbanned cfg command b hb]
    exact ⟨rfl, rfl⟩
  · intro cfg command hnone hallow
    simp [validateCommand, hnone, hallow]
  · intro cfg command hnone hallow hsafe
    simp [validateCommand, hnone, hallow, hsafe]
  · intro cfg command hnone hallow hsafe
    simp [validateCommand, hnone, hallow, hsafe]

/-- Witness for C8: `sudo rm` is rejected even with `autoApprove = true`,
a universal allowlist and a safe list containing it; the non-banned command
`ls` with `autoApprove = true` is allowed without permission. -/
theorem claim_c8_witness :
    ((validateCommand ⟨["*"], ["sudo"], ["sudo rm", "ls"], true⟩ " Sudo rm -rf /").allowed = false ∧
     (validateCommand ⟨["*"], ["sudo"], ["sudo rm", "ls"], true⟩ " Sudo rm -rf /").needsPermission = false) ∧
    validateCommand ⟨["*"], ["sudo"], ["sudo rm", "ls"], true⟩ "ls -la" =
      ⟨true, "safe read-only", false⟩ := by
  constructor
  · exact claim_c8.1 ⟨["*"], ["sudo"], ["sudo rm", "ls"], true⟩ " Sudo rm -rf /"
      ⟨"sudo", by decide, by decide⟩
  · exact claim_c8.2.2.2.1 ⟨["*"], ["sudo"], ["sudo rm", "ls"], true⟩ "ls -la"
      (by decide) (by decide) (by decide)

theorem spawnStep_usage (info : WorkflowRunInfo) (e : WEvent) :
    (spawnStep info e).usage = info.usage := by
  obtain ⟨ty, an, dt, ts, res⟩ := e
  cases ty <;> cases an <;> simp [spawnStep]

theorem completeStep_usage (info : WorkflowRunInfo) (e : WEvent) :
    (completeStep info e).usage = info.usage := by
  obtain ⟨ty, an, dt, ts, res⟩ := e
  cases ty <;> cases an <;> simp [completeStep]

theorem agentEventStep_usage (info : WorkflowRunInfo) (e : WEvent) :
    (agentEventStep info e).usage =
      ⟨info.usage.inputTokens + (eventAgentUsage e).inputTokens,
       info.usage.outputTokens + (eventAgentUsage e).outputTokens⟩ := by
  obtain ⟨ty, an, dt, ts, res⟩ := e
  cases ty <;> cases an <;>
    simp only [agentEventStep, eventAgentUsage] <;>
    try simp
  cases dt <;> simp [WData.agentEvent]
  case _ ae =>
    cases ae <;> simp [AgentEvent.usageOf]
    case _ fr u => cases u <;> simp

theorem resultStep_none (info : WorkflowRunInfo) (e : WEvent)
    (h : e.result = none) : resultStep info e = info := by
  simp [resultStep, h]

theorem procEvent_usage (info : WorkflowRunInfo) (e : WEvent) (h : e.result = none) :
    (procEvent info e).usage =
      ⟨info.usage.inputTokens + (eventAgentUsage e).inputTokens,
       info.usage.outputTokens + (eventAgentUsage e).outputTokens⟩ := by
  rw [procEvent, resultStep_none _ _ h, agentEventStep_usage, completeStep_usage,
    spawnStep_usage]

theorem procEvent_result (info : WorkflowRunInfo) (e : WEvent) (r : WorkflowResult)
    (h : e.result = some r) : (procEvent info e).usage = r.usage := by
  simp [procEvent, resultStep, h]

theorem procEvents_usage (evs : List WEvent) : ∀ info : WorkflowRunInfo,
    (∀ e ∈ evs, e.result = none) →
    (procEvents info evs).usage = sumAgentUsageFrom info.usage evs := by
  induction evs with
  | nil => intro info _; rfl
  | cons e rest ih =>
    intro info h
    have he : e.result = none := h e (by simp)
    show (procEvents (procEvent info e) rest).usage =
      sumAgentUsageFrom info.usage (e :: rest)
    rw [ih _ (fun x hx => h x (by simp [hx]))]
    show sumAgentUsageFrom (procEvent info e).usage rest = _
    rw [procEvent_usage info e he]
    rfl

/-- C5 (amended): while no result-carrying event has been observed,
`WorkflowRunInfo.usage` equals the componentwise (input/output tokens) sum
of the usage carried by all `agent:event` events observed so far — main
agent and sub-agents alike; when an event carrying a `WorkflowResult` is
observed, the aggregated usage is **overwritten** with the result's own
usage (which the workflow computed from main-agent events only). -/
theorem claim_c5_amended :
    (∀ evs : List WEvent, (∀ e ∈ evs, e.result = none) →
      (procEvents initInfo evs).usage = sumAgentUsage evs) ∧
    (∀ (evs : List WEvent) (e : WEvent) (r : WorkflowResult), e.result = some r →
      (procEvents initInfo (evs ++ [e])).usage = r.usage) := by
  constructor
  · intro evs h
    exact procEvents_usage evs initInfo h
  · intro evs e r h
    have : procEvents initInfo (evs ++ [e]) =
        procEvent (procEvents initInfo evs) e := by
      simp [procEvents, List.foldl_append]
    rw [this, procEvent_result _ e r h]

/-- Witness for C5 (amended) at a concrete event sequence. -/
theorem claim_c5_amended_witness :
    (procEvents initInfo [subUsageEv]).usage = sumAgentUsage [subUsageEv] ∧
    (procEvents initInfo ([subUsageEv] ++ [zeroResultEv])).usage = (⟨0, 0⟩ : TokenUsage) := by
  constructor
  · exact claim_c5_amended.1 [subUsageEv] (by decide)
  · exact claim_c5_amended.2 [subUsageEv] zeroResultEv ⟨.completed, "out", ⟨0, 0⟩, 0, none⟩ rfl

/-- C5 counterexample: after a sub-agent `done` event carrying usage
(5, 7), the tracked usage is (5, 7); the workflow's result event then
overwrites it with the result's usage (0, 0), although the sum over all
observed agent events is still (5, 7) — so after the terminal status the
invariant claimed does not hold. -/
theorem claim_c5_counterexample :
    (procEvents initInfo [subUsageEv]).usage = ⟨5, 7⟩ ∧
    (procEvents initInfo ([subUsageEv] ++ [zeroResultEv])).usage = ⟨0, 0⟩ ∧
    sumAgentUsage ([subUsageEv] ++ [zeroResultEv]) = ⟨5, 7⟩ ∧
    (procEvents initInfo ([subUsageEv] ++ [zeroResultEv])).status = .completed ∧
    (⟨0, 0⟩ : TokenUsage) ≠ ⟨5, 7⟩ := by
  refine ⟨rfl, rfl, rfl, rfl, by decide⟩

theorem markCompleted_no_match (n : String) (out : Option String) (ts : Nat) :
    ∀ l : List SubAgentInfo, (∀ a ∈ l, ¬(a.name = n ∧ a.status = .running)) →
    markCompleted n out ts l = l := by
  intro l
  induction l with
  | nil => intro _; rfl
  | cons a rest ih =>
    intro h
    have ha := h a (by simp)
    rw [markCompleted, if_neg ha, ih fun x hx => h x (by simp [hx])]

theorem markCompleted_first (n : String) (out : Option String) (ts : Nat) :
    ∀ (pre : List SubAgentInfo) (a : SubAgentInfo) (mid : List SubAgentInfo),
    (∀ b ∈ pre, ¬(b.name = n ∧ b.status = .running)) →
    a.name = n → a.status = .running →
    markCompleted n out ts (pre ++ a :: mid) =
      pre ++ { a with
               status := .completed
               completedAt := some ts
               output := out } :: mid := by
  intro pre
  induction pre with
  | nil =>
    intro a mid _ hn hs
    rw [List.nil_append, markCompleted, if_pos ⟨hn, hs⟩, List.nil_append]
  | cons b rest ih =>
    intro a mid h hn hs
    have hb := h b (by simp)
    rw [List.cons_append, markCompleted, if_neg hb,
      ih a mid (fun x hx => h x (by simp [hx])) hn hs, List.cons_append]

theorem procEvent_completed (info : WorkflowRunInfo) (n : String) (dt : WData)
    (ts : Nat) :
    procEvent info ⟨.agentCompleted, some n, dt, ts, none⟩ =
      { info with
        recentEvents := capPush info.recentEvents ⟨.agentCompleted, some n, dt, ts, none⟩
        agents := markCompleted n dt.completedOutput ts info.agents } := by
  rfl

/-- C9 (amended): when the manager observes an `agent:completed` event
carrying agent name n, it marks the **earliest-spawned** (first in the
list) still-running entry whose name equals n as completed — recording the
event's timestamp and the carried output — and leaves every other entry
unchanged; if no still-running entry has the name, nothing changes.  In
particular, when two still-running entries share the name n, the
earlier-spawned one is marked, not the later one. -/
theorem claim_c9_amended :
    (∀ (info : WorkflowRunInfo) (n : String) (dt : WData) (ts : Nat),
      procEvent info ⟨.agentCompleted, some n, dt, ts, none⟩ =
        { info with
          recentEvents := capPush info.recentEvents ⟨.agentCompleted, some n, dt, ts, none⟩
          agents := markCompleted n dt.completedOutput ts info.agents }) ∧
    (∀ (n : String) (out : Option String) (ts : Nat) (l : List SubAgentInfo),
      (∀ a ∈ l, ¬(a.name = n ∧ a.status = .running)) →
      markCompleted n out ts l = l) ∧
    (∀ (n : String) (out : Option String) (ts : Nat) (pre : List SubAgentInfo)
      (a : SubAgentInfo) (mid : List SubAgentInfo),
      (∀ b ∈ pre, ¬(b.name = n ∧ b.status = .running)) →
      a.name = n → a.status = .running →
      markCompleted n out ts (pre ++ a :: mid) =
        pre ++ { a with
                 status := .completed
                 completedAt := some ts
                 output := out } :: mid) :=
  ⟨procEvent_completed, markCompleted_no_match, markCompleted_first⟩

/-- Witness for C9 (amended) at concrete lists. -/
theorem claim_c9_amended_witness :
    markCompleted "a" (some "out") 9 [⟨"b", none, .running, 0, none, none, none, 0⟩] =
      [⟨"b", none, .running, 0, none, none, none, 0⟩] ∧
    markCompleted "a" (some "out") 9
      [⟨"b", none, .running, 0, none, none, none, 0⟩, runningSub 1] =
      [⟨"b", none, .running, 0, none, none, none, 0⟩,
       ⟨"a", none, .completed, 1, some 9, none, some "out", 0⟩] := by
  constructor
  · exact claim_c9_amended.2.1 "a" (some "out") 9
      [⟨"b", none, .running, 0, none, none, none, 0⟩] (by decide)
  · exact claim_c9_amended.2.2 "a" (some "out") 9
      [⟨"b", none, .running, 0, none, none, none, 0⟩] (runningSub 1) []
      (by decide) rfl rfl

/-- C9 counterexample: with two still-running entries both named `a`
(spawned at times 1 and 2), an `agent:completed` for `a` marks the
**first** (earlier-spawned) entry completed and leaves the later-spawned
entry running — the opposite of the claimed "most recent" selection. -/
theorem claim_c9_counterexample :
    markCompleted "a" (some "out") 9 [runningSub 1, runningSub 2] =
      [⟨"a", none, .completed, 1, some 9, none, some "out", 0⟩, runningSub 2] ∧
    (runningSub 2).status = .running := by
  refine ⟨rfl, rfl⟩

end AgentCore
